import Mathlib

/-!
Shallow embedding of the `ai-agent-guardrails` TypeScript package
(policy engine, redaction pipeline, guard pipeline) together with
theorems settling the specification claims.

Source files embedded:
- `packages/ai-agent-guardrails/src/policy.ts` (`createSimplePolicy`)
- `packages/ai-agent-guardrails/src/redaction.ts` (regex / field redactors)
- `packages/ai-agent-guardrails/src/types.ts` and `utils.ts` (`withTimeout`)
- `packages/mcp-server-demo/src/server.ts` (`guardTools` wrapped execute)

Machine integers are modelled as `Nat` (JS timestamps/counters stay far below
2^53 in all modelled scenarios and the code performs no wrapping arithmetic);
JS `undefined`/optional values as `Option`; thrown JS errors as `Except` /
explicit outcome variants.
-/

namespace Guardrails

/-- JSON-like runtime values: the shape of tool inputs/outputs that the
redactors traverse (`unknown` in the TypeScript source). -/
inductive Value where
  | str (s : String)
  | num (n : Int)
  | bool (b : Bool)
  | null
  | arr (items : List Value)
  | obj (fields : List (String × Value))

/-- Risk classification for tools (`type Risk = 'read' | 'write' | 'admin'`). -/
inductive Risk where
  | read | write | admin
  deriving Repr, DecidableEq

/-- Decision outcome from policy evaluation (`type GuardDecision`). -/
inductive GuardDecision where
  | allow
  | deny (reason : String)
  | allowNeedsApproval (reason : String)
  deriving Repr, DecidableEq

/-- JS `String.prototype.toLowerCase` restricted to the ASCII strings the
source manipulates. -/
def jsToLowerCase (s : String) : String := s.map Char.toLower

/-- Boolean list-prefix test (helper for substring containment). -/
def listStartsWith : List Char → List Char → Bool
  | [], _ => true
  | _ :: _, [] => false
  | a :: as, b :: bs => a == b && listStartsWith as bs

/-- Boolean contiguous-sublist test (helper for substring containment). -/
def listContainsSub (pat : List Char) : List Char → Bool
  | [] => listStartsWith pat []
  | c :: rest => listStartsWith pat (c :: rest) || listContainsSub pat rest

/-- JS `String.prototype.includes`: substring containment. -/
def jsIncludes (s pat : String) : Bool := listContainsSub pat.toList s.toList

/-- Options record passed to `createSimplePolicy` in `policy.ts`.
`allowlist?`/`denylist?` are optional arrays; `requireApprovalForRisk`
defaults to `['write', 'admin']` at destructuring time. -/
structure SimplePolicyOptions where
  allowlist : Option (List String) := none
  denylist : Option (List String) := none
  requireApprovalForRisk : List Risk := [Risk.write, Risk.admin]

/-- `createSimplePolicy(...).classify` from `policy.ts`: case-insensitive
substring matching on the tool name. -/
def simpleClassify (toolName : String) : Risk × String :=
  let lowered := jsToLowerCase toolName
  if jsIncludes lowered "delete" || jsIncludes lowered "remove" ||
      jsIncludes lowered "destroy" || jsIncludes lowered "drop" then
    (Risk.admin, "destructive operation")
  else if jsIncludes lowered "create" || jsIncludes lowered "write" ||
      jsIncludes lowered "update" || jsIncludes lowered "modify" ||
      jsIncludes lowered "insert" || jsIncludes lowered "send" ||
      jsIncludes lowered "post" then
    (Risk.write, "write operation")
  else
    (Risk.read, "read-only operation")

/-- The string interpolation `${risk}` of the TS risk union value. -/
def riskLabel : Risk → String
  | Risk.read => "read"
  | Risk.write => "write"
  | Risk.admin => "admin"

/-- `createSimplePolicy(...).decide` from `policy.ts`. A JS array is truthy
even when empty, so the allowlist check fires for every configured
(`some`) allowlist, including `some []`. The source's `decide` receives
`input` and `ctx` as well but its body reads only `toolName` and `risk`,
so those unused parameters are omitted here. -/
def simpleDecide (opts : SimplePolicyOptions) (toolName : String)
    (risk : Risk) : GuardDecision :=
  if (match opts.denylist with
      | some d => d.contains toolName
      | none => false) then
    GuardDecision.deny ("Tool '" ++ toolName ++ "' is in denylist")
  else if (match opts.allowlist with
      | some a => !a.contains toolName
      | none => false) then
    GuardDecision.deny ("Tool '" ++ toolName ++ "' is not in allowlist")
  else if opts.requireApprovalForRisk.contains risk then
    GuardDecision.allowNeedsApproval (riskLabel risk ++ " operation requires approval")
  else
    GuardDecision.allow

/-- Whether a decision is the `Deny` variant. -/
def GuardDecision.isDeny : GuardDecision → Bool
  | GuardDecision.deny _ => true
  | _ => false

/-- The reason carried by a decision (empty for plain `Allow`). -/
def GuardDecision.reasonOf : GuardDecision → String
  | GuardDecision.allow => ""
  | GuardDecision.deny r => r
  | GuardDecision.allowNeedsApproval r => r

/-! ### Field-based redactor (`createFieldRedactor` in `redaction.ts`) -/

mutual

/-- Body of `createFieldRedactor(...).redact` from `redaction.ts`, with the
already-lowercased `fieldSet` as first argument. Arrays are mapped
element-wise; in objects a key whose lowercase form is in the set has its
value replaced by the replacement string without recursion, every other
entry recurses; all other values are returned unchanged (the source's final
`return value`, spelled out per scalar constructor here). JS objects have
distinct keys, which the association-list model inherits. -/
def fieldRedact (fieldSet : List String) (replacement : String) : Value → Value
  | Value.arr items => Value.arr (fieldRedactItems fieldSet replacement items)
  | Value.obj fields => Value.obj (fieldRedactEntries fieldSet replacement fields)
  | Value.str s => Value.str s
  | Value.num n => Value.num n
  | Value.bool b => Value.bool b
  | Value.null => Value.null

/-- `value.map(item => this.redact(item))` for the field redactor. -/
def fieldRedactItems (fieldSet : List String) (replacement : String) :
    List Value → List Value
  | [] => []
  | v :: vs =>
      fieldRedact fieldSet replacement v :: fieldRedactItems fieldSet replacement vs

/-- The `Object.entries` loop of the field redactor. -/
def fieldRedactEntries (fieldSet : List String) (replacement : String) :
    List (String × Value) → List (String × Value)
  | [] => []
  | (k, v) :: rest =>
      (if fieldSet.contains (jsToLowerCase k) then (k, Value.str replacement)
       else (k, fieldRedact fieldSet replacement v)) ::
        fieldRedactEntries fieldSet replacement rest

end

/-- `createFieldRedactor` from `redaction.ts`: lowercases the configured
field names once, then redacts with `fieldRedact`. -/
def createFieldRedactor (fieldsToRedact : List String) (replacement : String) :
    Value → Value :=
  fieldRedact (fieldsToRedact.map jsToLowerCase) replacement

/-- Whether a key matches a configured field name up to letter case. -/
def keyMatchesField (fields : List String) (key : String) : Prop :=
  ∃ f ∈ fields, jsToLowerCase key = jsToLowerCase f

mutual

/-- Spec-side relation, written from the claim's words: at every nesting
depth a matching key's value becomes the replacement token without
recursion, non-matching keys are preserved and their values recursed,
sequences recurse element-wise, and all other values pass unchanged. -/
inductive FieldRedSpec (fields : List String) (replacement : String) :
    Value → Value → Prop
  | scalarStr (s : String) : FieldRedSpec fields replacement (Value.str s) (Value.str s)
  | scalarNum (n : Int) : FieldRedSpec fields replacement (Value.num n) (Value.num n)
  | scalarBool (b : Bool) :
      FieldRedSpec fields replacement (Value.bool b) (Value.bool b)
  | scalarNull : FieldRedSpec fields replacement Value.null Value.null
  | arrCase (items items' : List Value)
      (h : FieldRedItemsSpec fields replacement items items') :
      FieldRedSpec fields replacement (Value.arr items) (Value.arr items')
  | objCase (kvs kvs' : List (String × Value))
      (h : FieldRedEntriesSpec fields replacement kvs kvs') :
      FieldRedSpec fields replacement (Value.obj kvs) (Value.obj kvs')

/-- Spec-side relation on sequences: element-wise redaction, order kept. -/
inductive FieldRedItemsSpec (fields : List String) (replacement : String) :
    List Value → List Value → Prop
  | nil : FieldRedItemsSpec fields replacement [] []
  | consCase (v v' : Value) (vs vs' : List Value)
      (h1 : FieldRedSpec fields replacement v v')
      (h2 : FieldRedItemsSpec fields replacement vs vs') :
      FieldRedItemsSpec fields replacement (v :: vs) (v' :: vs')

/-- Spec-side relation on mapping entries: a case-insensitively matching key
keeps its key but gets the replacement token (no recursion into the old
value); a non-matching key is preserved with its value redacted
recursively. -/
inductive FieldRedEntriesSpec (fields : List String) (replacement : String) :
    List (String × Value) → List (String × Value) → Prop
  | nil : FieldRedEntriesSpec fields replacement [] []
  | matchCase (k : String) (v : Value) (rest rest' : List (String × Value))
      (hm : keyMatchesField fields k)
      (h2 : FieldRedEntriesSpec fields replacement rest rest') :
      FieldRedEntriesSpec fields replacement ((k, v) :: rest)
        ((k, Value.str replacement) :: rest')
  | recurseCase (k : String) (v v' : Value) (rest rest' : List (String × Value))
      (hm : ¬ keyMatchesField fields k)
      (h1 : FieldRedSpec fields replacement v v')
      (h2 : FieldRedEntriesSpec fields replacement rest rest') :
      FieldRedEntriesSpec fields replacement ((k, v) :: rest) ((k, v') :: rest')

end

/-! ### Guard pipeline (`guardTools` in `server.ts`, `withTimeout` in `utils.ts`)

Time is modelled by an explicit `now` parameter (the value of `Date.now()`
when the wrapped execute is entered); the only modelled passage of time is
the underlying capability's execution, whose duration is part of the
capability model. A JS thrown error is a `JsError`; the call outcome tags
which throw site of the source produced the propagated error. -/

/-- A JS `Error`, identified by its message. -/
structure JsError where
  message : String
  deriving DecidableEq

/-- `GuardContext` from `types.ts`. -/
structure GuardContext where
  requestId : String
  toolCalls : Nat
  maxToolCalls : Nat
  startTime : Nat
  maxDurationMs : Option Nat

/-- `AuditEvent` from `types.ts` (six tagged variants). -/
inductive AuditEvent where
  | attempted (toolName : String) (input : Value) (requestId : String)
      (timestamp : Nat)
  | blocked (toolName : String) (reason : String) (requestId : String)
      (timestamp : Nat)
  | needsApprovalEv (toolName : String) (reason : String) (requestId : String)
      (timestamp : Nat)
  | executed (toolName : String) (durationMs : Nat) (requestId : String)
      (timestamp : Nat)
  | timeoutEv (toolName : String) (timeoutMs : Nat) (requestId : String)
      (timestamp : Nat)
  | budgetExceeded (reason : String) (requestId : String) (timestamp : Nat)

/-- The `type` discriminant of an audit event. -/
inductive EventKind where
  | attempted | blocked | needsApproval | executed | timeout | budgetExceeded
  deriving DecidableEq

/-- Discriminant of an event. -/
def AuditEvent.kind : AuditEvent → EventKind
  | AuditEvent.attempted _ _ _ _ => EventKind.attempted
  | AuditEvent.blocked _ _ _ _ => EventKind.blocked
  | AuditEvent.needsApprovalEv _ _ _ _ => EventKind.needsApproval
  | AuditEvent.executed _ _ _ _ => EventKind.executed
  | AuditEvent.timeoutEv _ _ _ _ => EventKind.timeout
  | AuditEvent.budgetExceeded _ _ _ => EventKind.budgetExceeded

/-- Behaviour of one `sink.emit(event)` call: it can return normally (or
with a promise that eventually resolves), return a promise that later
rejects (never awaited by the pipeline), or throw synchronously. -/
inductive EmitOutcome where
  | ok
  | rejectedPromise
  | threw (e : JsError)

/-- An `AuditSink` (`types.ts`), modelled by the behaviour of its `emit`. -/
structure SinkModel where
  emit : AuditEvent → EmitOutcome

/-- A `GuardPolicy` (`types.ts`): `classify` and `decide`, either of which
may throw (`Except.error`). `decide` receives the tool name, input, the
shared context, the risk and the classifier's reason. -/
structure PolicyModel where
  classify : String → Value → Except JsError (Risk × Option String)
  decide : String → Value → GuardContext → Risk → Option String →
      Except JsError GuardDecision

/-- An underlying capability's `execute`, modelled by how long it runs and
what it then produces (a value or a thrown error). -/
def ExecModel : Type := Value → Nat × Except JsError Value

/-- Message of the error created by `withTimeout` in `utils.ts`. -/
def timedOutMessage (ms : Nat) : String :=
  "Operation timed out after " ++ toString ms ++ "ms"

/-- `withTimeout(promise, ms)` from `utils.ts`: the timer (set to `ms`) wins
the race exactly when the underlying execution takes longer than `ms`;
otherwise the underlying settlement is passed through. -/
def withTimeout (behavior : Nat × Except JsError Value) (ms : Nat) :
    Except JsError Value :=
  if behavior.1 > ms then Except.error ⟨timedOutMessage ms⟩ else behavior.2

/-- How a guarded invocation ends, tagged by the throw site of the source
that produced the propagated error (the JS caller just sees the error). -/
inductive CallOutcome where
  | success (result : Value)
  /-- a sink's synchronous `emit` throw propagated -/
  | sinkThrew (e : JsError)
  /-- `throw new Error(reason)` in a budget check -/
  | budgetRejected (e : JsError)
  /-- `classify`/`decide` itself threw and the error propagated -/
  | policyThrew (e : JsError)
  /-- `throw new Error('Tool call blocked: ...')` -/
  | blockedCall (e : JsError)
  /-- the awaited `withTimeout(originalExecute(input))` rejected and the
  error was rethrown (a timeout error or the capability's own error) -/
  | execFailed (e : JsError)

/-- Result of one wrapped `execute` invocation: the context afterwards, the
sequence of events passed to `sink.emit` (in call order), and the outcome. -/
structure GuardResult where
  ctx : GuardContext
  events : List AuditEvent
  outcome : CallOutcome

/-- One `audit?.emit(ev)` statement: no-op without a sink; with a sink the
event is handed to `emit`, which may throw synchronously. -/
def emitCall (sink : Option SinkModel) (ev : AuditEvent) :
    List AuditEvent × Option JsError :=
  match sink with
  | none => ([], none)
  | some s => ([ev],
      match s.emit ev with
      | EmitOutcome.threw e => some e
      | _ => none)

/-- The elapsed-time budget check of `guardTools` (`server.ts`): JS
truthiness makes `maxDurationMs = 0` skip the check entirely. Returns the
rejection reason when the budget is exceeded. -/
def overTimeBudget (ctx : GuardContext) (now : Nat) : Option String :=
  match ctx.maxDurationMs with
  | some d =>
      if d ≠ 0 ∧ now - ctx.startTime > d then
        some ("Time budget exceeded (maxDurationMs=" ++ toString d ++ ")")
      else none
  | none => none

/-- The `catch` block of the execute-with-timeout step in `guardTools`: if
the caught error's message contains `'timed out'`, a `timeout` event is
emitted (that emit itself may throw, replacing the error); then the caught
error is rethrown. `tag` records which site produced the caught error. -/
def guardCatch (sink : Option SinkModel) (toolName : String) (timeoutMs : Nat)
    (requestId : String) (ts : Nat) (e : JsError)
    (tag : JsError → CallOutcome) : List AuditEvent × CallOutcome :=
  if jsIncludes e.message "timed out" then
    let emitted := emitCall sink (AuditEvent.timeoutEv toolName timeoutMs requestId ts)
    match emitted.2 with
    | some e2 => (emitted.1, CallOutcome.sinkThrew e2)
    | none => (emitted.1, tag e)
  else ([], tag e)

/-- The wrapped `execute` produced by `guardTools` in `server.ts`
(lines 257–355), for a capability that has an `execute`. Steps, in source
order: redact the input for logging; emit `attempted`; increment the call
counter and reject over budget (the increment is not rolled back); reject
when the elapsed-time budget is exceeded; run `classify` and `decide`
(their errors propagate); throw on `Deny` after emitting `blocked`; emit
`needs_approval` for approval-carrying decisions; run the capability under
`withTimeout`, emitting `executed` on success (returning the unredacted
result) and routing failures through the `catch` block. -/
def guardedExecute (policy : PolicyModel) (sink : Option SinkModel)
    (timeoutMs : Nat) (redactor : Option (Value → Value)) (toolName : String)
    (exec : ExecModel) (ctx : GuardContext) (now : Nat) (input : Value) :
    GuardResult :=
  let redactedInput := match redactor with | some r => r input | none => input
  let e1 := emitCall sink (AuditEvent.attempted toolName redactedInput ctx.requestId now)
  match e1.2 with
  | some e => ⟨ctx, e1.1, CallOutcome.sinkThrew e⟩
  | none =>
    let ctx1 : GuardContext := { ctx with toolCalls := ctx.toolCalls + 1 }
    if ctx1.toolCalls > ctx1.maxToolCalls then
      let reason := "Tool budget exceeded (maxToolCalls=" ++
        toString ctx1.maxToolCalls ++ ")"
      let e2 := emitCall sink (AuditEvent.budgetExceeded reason ctx.requestId now)
      match e2.2 with
      | some e => ⟨ctx1, e1.1 ++ e2.1, CallOutcome.sinkThrew e⟩
      | none => ⟨ctx1, e1.1 ++ e2.1, CallOutcome.budgetRejected ⟨reason⟩⟩
    else
      match overTimeBudget ctx1 now with
      | some reason =>
        let e2 := emitCall sink (AuditEvent.budgetExceeded reason ctx.requestId now)
        match e2.2 with
        | some e => ⟨ctx1, e1.1 ++ e2.1, CallOutcome.sinkThrew e⟩
        | none => ⟨ctx1, e1.1 ++ e2.1, CallOutcome.budgetRejected ⟨reason⟩⟩
      | none =>
        match policy.classify toolName input with
        | Except.error e => ⟨ctx1, e1.1, CallOutcome.policyThrew e⟩
        | Except.ok (risk, creason) =>
          match policy.decide toolName input ctx1 risk creason with
          | Except.error e => ⟨ctx1, e1.1, CallOutcome.policyThrew e⟩
          | Except.ok decision =>
            match decision with
            | GuardDecision.deny dreason =>
              let e3 := emitCall sink
                (AuditEvent.blocked toolName dreason ctx.requestId now)
              match e3.2 with
              | some e => ⟨ctx1, e1.1 ++ e3.1, CallOutcome.sinkThrew e⟩
              | none => ⟨ctx1, e1.1 ++ e3.1,
                  CallOutcome.blockedCall ⟨"Tool call blocked: " ++ dreason⟩⟩
            | _ =>
              let e4 := match decision with
                | GuardDecision.allowNeedsApproval areason =>
                    emitCall sink (AuditEvent.needsApprovalEv toolName areason
                      ctx.requestId now)
                | _ => ([], none)
              match e4.2 with
              | some e => ⟨ctx1, e1.1 ++ e4.1, CallOutcome.sinkThrew e⟩
              | none =>
                let run := exec input
                match withTimeout run timeoutMs with
                | Except.ok result =>
                  -- the source also computes `redactor.redact(result)` here,
                  -- but that value is dead: the `executed` event carries only
                  -- the duration, and the original result is returned
                  let e5 := emitCall sink (AuditEvent.executed toolName run.1
                    ctx.requestId (now + run.1))
                  match e5.2 with
                  | some e =>
                    let caught := guardCatch sink toolName timeoutMs
                      ctx.requestId (now + run.1) e CallOutcome.sinkThrew
                    ⟨ctx1, e1.1 ++ e4.1 ++ e5.1 ++ caught.1, caught.2⟩
                  | none =>
                    ⟨ctx1, e1.1 ++ e4.1 ++ e5.1, CallOutcome.success result⟩
                | Except.error e =>
                  let caught := guardCatch sink toolName timeoutMs
                    ctx.requestId (now + min run.1 timeoutMs) e
                    CallOutcome.execFailed
                  ⟨ctx1, e1.1 ++ e4.1 ++ caught.1, caught.2⟩

/-- Run `n` sequential invocations of the wrapped execute with a fixed
input, threading the shared mutable context, collecting each call's result
oldest first. -/
def runCalls (policy : PolicyModel) (sink : Option SinkModel) (timeoutMs : Nat)
    (redactor : Option (Value → Value)) (toolName : String) (exec : ExecModel)
    (now : Nat) (input : Value) : GuardContext → Nat → GuardContext × List GuardResult
  | ctx, 0 => (ctx, [])
  | ctx, Nat.succ n =>
    let r := guardedExecute policy sink timeoutMs redactor toolName exec ctx now input
    let rest := runCalls policy sink timeoutMs redactor toolName exec now input r.ctx n
    (rest.1, r :: rest.2)

/-! ### Interception wrapper: `needsApproval` synthesis (`server.ts` 238–251) -/

/-- The `needsApproval` field a host tool may carry: a boolean or a
predicate over the input (`boolean | ((input) => boolean | Promise<boolean>)`). -/
inductive ApprovalField where
  | boolVal (b : Bool)
  | predVal (f : Value → Except JsError Bool)

/-- A host tool (`ToolLike` in `types.ts`): optional `needsApproval`,
optional `execute`. -/
structure ToolLike where
  needsApprovalF : Option ApprovalField
  executeF : Option ExecModel

/-- Whether a decision carries `needsApproval`
(`Boolean((decision as any).needsApproval)`). -/
def GuardDecision.carriesNeedsApproval : GuardDecision → Bool
  | GuardDecision.allowNeedsApproval _ => true
  | _ => false

/-- The predicate `guardTools` synthesizes when the host tool declares no
`needsApproval`: run `classify` then `decide` and report whether the
decision carries `needsApproval`; on any error, fail closed with `true`. -/
def synthNeedsApproval (policy : PolicyModel) (ctx : GuardContext)
    (toolName : String) (input : Value) : Bool :=
  match policy.classify toolName input with
  | Except.error _ => true
  | Except.ok (risk, creason) =>
    match policy.decide toolName input ctx risk creason with
    | Except.error _ => true
    | Except.ok decision => decision.carriesNeedsApproval

/-- The `needsApproval` field of the wrapped tool:
`tool.needsApproval ?? (async (input) => ...)`. -/
def wrapToolApproval (policy : PolicyModel) (ctx : GuardContext)
    (toolName : String) (t : ToolLike) : ApprovalField :=
  match t.needsApprovalF with
  | some na => na
  | none => ApprovalField.predVal
      (fun input => Except.ok (synthNeedsApproval policy ctx toolName input))

/-- The wrapped tool built by `guardTools` for one entry of the toolset:
the synthesized (or kept) approval field, and the guarded execute when the
original tool has an execute (`undefined` otherwise). -/
def wrapTool (policy : PolicyModel) (sink : Option SinkModel) (timeoutMs : Nat)
    (redactor : Option (Value → Value)) (ctx : GuardContext) (toolName : String)
    (t : ToolLike) :
    ApprovalField × Option (GuardContext → Nat → Value → GuardResult) :=
  (wrapToolApproval policy ctx toolName t,
   t.executeF.map (fun ex ctx' now input =>
     guardedExecute policy sink timeoutMs redactor toolName ex ctx' now input))

/-! ### Regex redactor (`createRegexRedactor` / `createDefaultRedactor`)

The default patterns of `redaction.ts` use a small fragment of JS regex:
literals, counted character classes (exact or greedy-unbounded), one
optional group, and word boundaries at the ends. The embedding gives this
fragment JS semantics: a backtracking matcher that prefers longer class
runs (greedy) and a present optional group, and a global replace that
scans left to right for non-overlapping matches, evaluating `\b` against
the original characters. -/

/-- JS regex word character (`\w` = `[A-Za-z0-9_]`); `\b` compares the
word-ness of the two neighbouring positions. -/
def wordC (c : Char) : Bool :=
  ('a' ≤ c && c ≤ 'z') || ('A' ≤ c && c ≤ 'Z') || ('0' ≤ c && c ≤ '9') || c == '_'

/-- Word-ness of an optional character (outside the string counts as
non-word). -/
def wordO : Option Char → Bool
  | some c => wordC c
  | none => false

/-- One building block of the pattern fragment: a literal, a counted
character class (`{m}` exact, or `{m,}` greedy), or an optional group. -/
inductive Atom where
  | lit (cs : List Char)
  | cnt (p : Char → Bool) (m : Nat) (unbounded : Bool)
  | optG (g : List Atom)

/-- Declarative semantics of an atom list: which character lists it can
consume entirely. The greedy/backtracking engine explores exactly these
decompositions. -/
inductive AtomsMatch : List Atom → List Char → Prop
  | nil : AtomsMatch [] []
  | lit (cs : List Char) (as : List Atom) (t : List Char)
      (h : AtomsMatch as t) : AtomsMatch (Atom.lit cs :: as) (cs ++ t)
  | cnt (p : Char → Bool) (m : Nat) (ub : Bool) (as : List Atom)
      (run t : List Char)
      (hlen : if ub then m ≤ run.length else run.length = m)
      (hall : ∀ c ∈ run, p c = true) (h : AtomsMatch as t) :
      AtomsMatch (Atom.cnt p m ub :: as) (run ++ t)
  | optYes (g : List Atom) (as : List Atom) (u : List Char)
      (h : AtomsMatch (g ++ as) u) : AtomsMatch (Atom.optG g :: as) u
  | optNo (g : List Atom) (as : List Atom) (u : List Char)
      (h : AtomsMatch as u) : AtomsMatch (Atom.optG g :: as) u

/-- Length of the maximal prefix of `s` whose characters satisfy `p`. -/
def clsRun (p : Char → Bool) : List Char → Nat
  | [] => 0
  | c :: rest => if p c then clsRun p rest + 1 else 0

/-- The last character of `u`, falling back to `last` when `u` is empty
(threads the character preceding the current position). -/
def lastOpt (u : List Char) (last : Option Char) : Option Char :=
  match u.getLast? with
  | some c => some c
  | none => last

/-- Greedy countdown for an unbounded class: try a run of `r` characters,
then `r - 1`, … for `steps` further attempts, handing the remaining string
to the continuation `next` (which reports how many further characters the
rest of the pattern consumes). -/
def cntDown (next : Option Char → List Char → Option Nat) (last : Option Char)
    (s : List Char) : Nat → Nat → Option Nat
  | r, steps =>
      match next (lastOpt (s.take r) last) (s.drop r) with
      | some n => some (r + n)
      | none =>
          match steps with
          | 0 => none
          | steps' + 1 => cntDown next last s (r - 1) steps'

/-- Backtracking matcher for an atom list in JS preference order, in
continuation style: literals and `{m}` classes are forced, `{m,}` classes
try the longest run first, optional groups try the present alternative
first. `last` is the character before the current position; `k` receives
the end position (preceding character and remaining string) and either
accepts (`some` extra consumed count, `0` at top level — the trailing `\b`
test) or rejects. Returns the total consumed count of the first acceptable
alternative. -/
def matchAtomsK : List Atom → Option Char → List Char →
    (Option Char → List Char → Option Nat) → Option Nat
  | [], last, s, k => k last s
  | Atom.lit cs :: as, last, s, k =>
      if listStartsWith cs s then
        (matchAtomsK as (lastOpt cs last) (s.drop cs.length) k).map
          (fun n => cs.length + n)
      else none
  | Atom.cnt p m true :: as, last, s, k =>
      if m ≤ clsRun p s then
        cntDown (fun last' s' => matchAtomsK as last' s' k) last s
          (clsRun p s) (clsRun p s - m)
      else none
  | Atom.cnt p m false :: as, last, s, k =>
      if m ≤ clsRun p s then
        (matchAtomsK as (lastOpt (s.take m) last) (s.drop m) k).map
          (fun n => m + n)
      else none
  | Atom.optG g :: as, last, s, k =>
      match matchAtomsK g last s
          (fun last' s' => matchAtomsK as last' s' k) with
      | some n => some n
      | none => matchAtomsK as last s k

/-- The pattern shapes used by the default redactor: an atom list framed by
optional word boundaries. -/
structure RegexPat where
  atoms : List Atom
  bStart : Bool
  bEnd : Bool

/-- A valid match of pattern `P` of length `n` at the current position:
`lw` is the word-ness of the character before the position, `s` the rest of
the string. The atoms consume `s.take n`, and the framing `\b`s compare
word-ness across the match ends. -/
def PMatches (P : RegexPat) (lw : Bool) (s : List Char) (n : Nat) : Prop :=
  n ≤ s.length ∧ AtomsMatch P.atoms (s.take n) ∧
  (P.bStart = true → lw ≠ wordO (s.get? 0)) ∧
  (P.bEnd = true → wordO (s.get? (n - 1)) ≠ wordO (s.get? n))

/-- The JS engine's preferred match of `P` at the current position, if any:
check the leading `\b`, then run the backtracking matcher with the
trailing `\b` as acceptance test. -/
def tryMatchP (P : RegexPat) (lw : Bool) (s : List Char) : Option Nat :=
  if P.bStart = true && (lw == wordO (s.get? 0)) then none
  else matchAtomsK P.atoms none s
    (fun last rest =>
      if !P.bEnd || (wordO last != wordO (rest.get? 0)) then some 0 else none)

/-- The replacement token `'[REDACTED]'`. -/
def redactedTok : List Char := "[REDACTED]".toList

/-- `String.prototype.replace` with a global regex: scan left to right; at
each position ask the engine for its preferred match; replace it and
continue after it (`\b` keeps looking at the original characters), else
keep the character. A zero-length answer is treated as no match (the
default patterns never produce one). -/
def replaceScan (P : RegexPat) (repl : List Char) : Bool → List Char → List Char
  | _, [] => []
  | lw, c :: rest =>
      match tryMatchP P lw (c :: rest) with
      | some (n + 1) =>
          repl ++ replaceScan P repl (wordO ((c :: rest).get? n))
            (List.drop (n + 1) (c :: rest))
      | some 0 => c :: replaceScan P repl (wordC c) rest
      | none => c :: replaceScan P repl (wordC c) rest
termination_by lw s => s.length
decreasing_by
  all_goals simp_wf
  all_goals omega

/-- `[0-9]`. -/
def isDigitC (c : Char) : Bool := '0' ≤ c && c ≤ '9'

/-- `[a-zA-Z0-9]`. -/
def isAlnum (c : Char) : Bool :=
  ('a' ≤ c && c ≤ 'z') || ('A' ≤ c && c ≤ 'Z') || isDigitC c

/-- `[a-zA-Z0-9_-]`. -/
def isTokenChar (c : Char) : Bool := isAlnum c || c == '_' || c == '-'

/-- `[0-9A-Z]`. -/
def isUpperDigit (c : Char) : Bool := ('A' ≤ c && c ≤ 'Z') || isDigitC c

/-- JS `\s` (whitespace incl. the Unicode space separators). -/
def isSpaceJs (c : Char) : Bool :=
  c == ' ' || ('\t' ≤ c && c ≤ '\x0d') || c.val == 0xa0 || c.val == 0x1680 ||
  (0x2000 ≤ c.val && c.val ≤ 0x200a) || c.val == 0x2028 || c.val == 0x2029 ||
  c.val == 0x202f || c.val == 0x205f || c.val == 0x3000 || c.val == 0xfeff

/-- `[A-Za-z0-9._%+-]` (email local part). -/
def isLocalChar (c : Char) : Bool :=
  isAlnum c || c == '.' || c == '_' || c == '%' || c == '+' || c == '-'

/-- `[A-Za-z0-9.-]` (email domain). -/
def isDomainChar (c : Char) : Bool := isAlnum c || c == '.' || c == '-'

/-- `[A-Z|a-z]` (the email pattern's TLD class, `|` included verbatim). -/
def isTldChar (c : Char) : Bool :=
  ('A' ≤ c && c ≤ 'Z') || ('a' ≤ c && c ≤ 'z') || c == '|'

/-- `/\b(sk-[a-zA-Z0-9]{48})\b/` — OpenAI API keys. -/
def patOpenAI : RegexPat :=
  ⟨[Atom.lit "sk-".toList, Atom.cnt isAlnum 48 false], true, true⟩

/-- `/\b(sk_live_[a-zA-Z0-9]{24,})\b/` — Stripe live keys. -/
def patStripeLive : RegexPat :=
  ⟨[Atom.lit "sk_live_".toList, Atom.cnt isAlnum 24 true], true, true⟩

/-- `/\b(sk_test_[a-zA-Z0-9]{24,})\b/` — Stripe test keys. -/
def patStripeTest : RegexPat :=
  ⟨[Atom.lit "sk_test_".toList, Atom.cnt isAlnum 24 true], true, true⟩

/-- `/\b([a-zA-Z0-9_-]{40})\b/` — GitHub tokens (40 chars). -/
def patGitHub40 : RegexPat := ⟨[Atom.cnt isTokenChar 40 false], true, true⟩

/-- `/\b(ghp_[a-zA-Z0-9]{36})\b/` — GitHub personal access tokens. -/
def patGhp : RegexPat :=
  ⟨[Atom.lit "ghp_".toList, Atom.cnt isAlnum 36 false], true, true⟩

/-- `/\b(gho_[a-zA-Z0-9]{36})\b/` — GitHub OAuth tokens. -/
def patGho : RegexPat :=
  ⟨[Atom.lit "gho_".toList, Atom.cnt isAlnum 36 false], true, true⟩

/-- `/\b(AKIA[0-9A-Z]{16})\b/` — AWS access keys. -/
def patAkia : RegexPat :=
  ⟨[Atom.lit "AKIA".toList, Atom.cnt isUpperDigit 16 false], true, true⟩

/-- `/-----BEGIN\s+(?:RSA\s+)?PRIVATE\s+KEY-----/` — private keys. -/
def patPrivKey : RegexPat :=
  ⟨[Atom.lit "-----BEGIN".toList, Atom.cnt isSpaceJs 1 true,
    Atom.optG [Atom.lit "RSA".toList, Atom.cnt isSpaceJs 1 true],
    Atom.lit "PRIVATE".toList, Atom.cnt isSpaceJs 1 true,
    Atom.lit "KEY-----".toList], false, false⟩

/-- `/\b([a-zA-Z0-9_-]{32,})\b/` — generic long tokens. -/
def patGeneric32 : RegexPat := ⟨[Atom.cnt isTokenChar 32 true], true, true⟩

/-- `/\b\d{3}-\d{2}-\d{4}\b/` — SSNs. -/
def patSsn : RegexPat :=
  ⟨[Atom.cnt isDigitC 3 false, Atom.lit "-".toList, Atom.cnt isDigitC 2 false,
    Atom.lit "-".toList, Atom.cnt isDigitC 4 false], true, true⟩

/-- `/\b\d{16}\b/` — credit card numbers. -/
def patCard : RegexPat := ⟨[Atom.cnt isDigitC 16 false], true, true⟩

/-- `/\b[A-Za-z0-9._%+-]+@[A-Za-z0-9.-]+\.[A-Z|a-z]{2,}\b/` — emails. -/
def patEmail : RegexPat :=
  ⟨[Atom.cnt isLocalChar 1 true, Atom.lit "@".toList,
    Atom.cnt isDomainChar 1 true, Atom.lit ".".toList,
    Atom.cnt isTldChar 2 true], true, true⟩

/-- `[...DEFAULT_SECRET_PATTERNS, ...DEFAULT_PII_PATTERNS]`, in the order
`createDefaultRedactor` applies them. -/
def defaultPatterns : List RegexPat :=
  [patOpenAI, patStripeLive, patStripeTest, patGitHub40, patGhp, patGho,
   patAkia, patPrivKey, patGeneric32, patSsn, patCard, patEmail]

/-- The `for (const pattern of patterns)` loop of `createRegexRedactor`'s
string case, for the default pattern list: each pattern's global replace
feeds the next. -/
def redactChars (s : List Char) : List Char :=
  defaultPatterns.foldl (fun acc P => replaceScan P redactedTok false acc) s

/-- The default redactor on strings. -/
def redactString (s : String) : String := ⟨redactChars s.data⟩

mutual

/-- `createRegexRedactor(DEFAULT patterns).redact` over structured values:
strings run through the pattern pipeline, arrays and objects recurse, all
other scalars pass unchanged. -/
def regexRedact : Value → Value
  | Value.str s => Value.str (redactString s)
  | Value.arr items => Value.arr (regexRedactItems items)
  | Value.obj fields => Value.obj (regexRedactEntries fields)
  | Value.num n => Value.num n
  | Value.bool b => Value.bool b
  | Value.null => Value.null

/-- Array case of the default regex redactor. -/
def regexRedactItems : List Value → List Value
  | [] => []
  | v :: vs => regexRedact v :: regexRedactItems vs

/-- Object case of the default regex redactor. -/
def regexRedactEntries : List (String × Value) → List (String × Value)
  | [] => []
  | (k, v) :: rest => (k, regexRedact v) :: regexRedactEntries rest

end

/-- Word-ness of the character just before position `i` of `v` (`lw` is
the context for position 0). -/
def ctxW (lw : Bool) (v : List Char) (i : Nat) : Bool :=
  if i = 0 then lw else wordO (v.get? (i - 1))

/-- No match of `Q` anywhere in `v`, read with left context `lw`. -/
def noMatchesIn (Q : RegexPat) (lw : Bool) (v : List Char) : Prop :=
  ∀ i n, ¬ PMatches Q (ctxW lw v i) (v.drop i) n

/-- Somewhere in `v` the pattern `P` has a valid match (position 0 context:
start of string). -/
def HasPatternMatch (P : RegexPat) (v : List Char) : Prop :=
  ∃ i n, PMatches P (ctxW false v i) (v.drop i) n

/-- Minimal number of characters one atom consumes. -/
def atomMinLen : Atom → Nat
  | Atom.lit cs => cs.length
  | Atom.cnt _ m _ => m
  | Atom.optG _ => 0

/-- Minimal number of characters an atom list consumes. -/
def atomsMinLen (as : List Atom) : Nat := (as.map atomMinLen).sum

mutual

/-- Every character any match of the atom can consume satisfies `good`. -/
def atomCharsOK (good : Char → Bool) : Atom → Prop
  | Atom.lit cs => ∀ c ∈ cs, good c = true
  | Atom.cnt p _ _ => ∀ c, p c = true → good c = true
  | Atom.optG g => atomsCharsOK good g

/-- `atomCharsOK` for every atom of the list. -/
def atomsCharsOK (good : Char → Bool) : List Atom → Prop
  | [] => True
  | a :: as => atomCharsOK good a ∧ atomsCharsOK good as

end

/-- Characters other than the two brackets of the replacement token. -/
def nonBracket (c : Char) : Bool := !(c == '[' || c == ']')

/-- The side conditions of a default pattern that the junction argument
uses: matches are nonempty, bracket-free, never a piece of the replacement
token's inner text, and (for the one pattern without word boundaries)
start and end with a non-word character. -/
structure GoodPat (R : RegexPat) : Prop where
  minOne : ∀ u, AtomsMatch R.atoms u → 1 ≤ u.length
  noBrk : ∀ u, AtomsMatch R.atoms u → ∀ c ∈ u, nonBracket c = true
  notRedacted : ∀ u, AtomsMatch R.atoms u →
      listContainsSub u ("REDACTED".toList) = false
  startNW : R.bStart = false → ∀ u c, AtomsMatch R.atoms u →
      u.get? 0 = some c → wordC c = false
  endNW : R.bEnd = false → ∀ u, AtomsMatch R.atoms u →
      wordO u.getLast? = false

/-- Length of the maximal run of positions, from the current one, at which
the scanner finds no match (the next chunk of characters it copies). -/
def chunkLen (P : RegexPat) : Bool → List Char → Nat
  | _, [] => 0
  | lw, c :: rest =>
      match tryMatchP P lw (c :: rest) with
      | some (_ + 1) => 0
      | some 0 => 1 + chunkLen P (wordC c) rest
      | none => 1 + chunkLen P (wordC c) rest

/-- `listStartsWith` holds exactly of prefixes. -/
theorem listStartsWith_iff (cs s : List Char) :
    listStartsWith cs s = true ↔ ∃ t, s = cs ++ t := by
  induction cs generalizing s with
  | nil => simp [listStartsWith]
  | cons c cs ih =>
      cases s with
      | nil =>
          simp only [listStartsWith]
          constructor
          · intro h; cases h
          · rintro ⟨t, ht⟩; cases ht
      | cons b bs =>
          rw [listStartsWith]
          simp only [Bool.and_eq_true, beq_iff_eq]
          constructor
          · rintro ⟨rfl, h⟩
            obtain ⟨t, rfl⟩ := (ih bs).mp h
            exact ⟨t, rfl⟩
          · rintro ⟨t, ht⟩
            injection ht with h1 h2
            exact ⟨h1.symm, (ih bs).mpr ⟨t, h2⟩⟩

/-- The maximal class run never exceeds the string length. -/
theorem clsRun_le_length (p : Char → Bool) (s : List Char) :
    clsRun p s ≤ s.length := by
  induction s with
  | nil => simp [clsRun]
  | cons c rest ih =>
      rw [clsRun]
      split
      · simpa using ih
      · simp

/-- A prefix run of class characters bounds `clsRun` from below. -/
theorem le_clsRun_of_run (p : Char → Bool) (run t : List Char)
    (hall : ∀ c ∈ run, p c = true) :
    run.length ≤ clsRun p (run ++ t) := by
  induction run with
  | nil => simp
  | cons c rest ih =>
      rw [List.cons_append, clsRun]
      have hc : p c = true := hall c (by simp)
      rw [hc]
      simp only [if_true, List.length_cons]
      have := ih (fun d hd => hall d (by simp [hd]))
      omega

/-- The first `m ≤ clsRun` characters all satisfy the class. -/
theorem clsRun_take (p : Char → Bool) (s : List Char) (m : Nat)
    (hm : m ≤ clsRun p s) : ∀ c ∈ s.take m, p c = true := by
  induction s generalizing m with
  | nil => simp
  | cons c rest ih =>
      rw [clsRun] at hm
      cases m with
      | zero => simp
      | succ m' =>
          split at hm
          · intro d hd
            rw [List.take_succ_cons] at hd
            rcases List.mem_cons.mp hd with rfl | hd'
            · assumption
            · exact ih m' (by omega) d hd'
          · omega

/-- Threading the previous character through a cons. -/
theorem lastOpt_cons (c : Char) (w : List Char) (last : Option Char) :
    lastOpt (c :: w) last = lastOpt w (some c) := by
  cases w with
  | nil => rfl
  | cons d ws =>
      unfold lastOpt
      rw [List.getLast?_cons_cons]
      cases h : (d :: ws).getLast? with
      | some e => rfl
      | none => simp at h

/-- Threading the previous character through an append. -/
theorem lastOpt_append (u v : List Char) (last : Option Char) :
    lastOpt (u ++ v) last = lastOpt v (lastOpt u last) := by
  induction u generalizing last with
  | nil => rfl
  | cons c cs ih => rw [List.cons_append, lastOpt_cons, lastOpt_cons, ih]

/-- Two consecutive atom lists consume the concatenation of what each
consumes. -/
theorem AtomsMatch_append {as bs : List Atom} {u v : List Char}
    (h1 : AtomsMatch as u) (h2 : AtomsMatch bs v) :
    AtomsMatch (as ++ bs) (u ++ v) := by
  induction h1 with
  | nil => simpa using h2
  | lit cs as' t h ih =>
      rw [List.cons_append, List.append_assoc]
      exact AtomsMatch.lit cs _ _ ih
  | cnt p m ub as' run t hlen hall h ih =>
      rw [List.cons_append, List.append_assoc]
      exact AtomsMatch.cnt p m ub _ run _ hlen hall ih
  | optYes g as' u' h ih =>
      rw [List.cons_append]
      refine AtomsMatch.optYes g _ _ ?_
      rw [← List.append_assoc]
      exact ih
  | optNo g as' u' h ih =>
      rw [List.cons_append]
      exact AtomsMatch.optNo g _ _ ih

/-- What a concatenation of atom lists consumes splits accordingly. -/
theorem AtomsMatch_split : ∀ {cs : List Atom} {w : List Char},
    AtomsMatch cs w → ∀ as bs, cs = as ++ bs →
    ∃ u v, w = u ++ v ∧ AtomsMatch as u ∧ AtomsMatch bs v := by
  intro cs w h
  induction h with
  | nil =>
      intro as bs heq
      rcases List.append_eq_nil.mp heq.symm with ⟨rfl, rfl⟩
      exact ⟨[], [], rfl, AtomsMatch.nil, AtomsMatch.nil⟩
  | lit cs' as₁ t h ih =>
      intro as bs heq
      cases as with
      | nil =>
          exact ⟨[], _, rfl, AtomsMatch.nil, by rw [← List.nil_append bs, ← heq]; exact AtomsMatch.lit cs' as₁ t h⟩
      | cons a as' =>
          rw [List.cons_append] at heq
          injection heq with h1 h2
          subst h1
          obtain ⟨u, v, rfl, hu, hv⟩ := ih as' bs h2
          exact ⟨cs' ++ u, v, by rw [List.append_assoc], AtomsMatch.lit cs' as' u hu, hv⟩
  | cnt p m ub as₁ run t hlen hall h ih =>
      intro as bs heq
      cases as with
      | nil =>
          exact ⟨[], _, rfl, AtomsMatch.nil, by rw [← List.nil_append bs, ← heq]; exact AtomsMatch.cnt p m ub as₁ run t hlen hall h⟩
      | cons a as' =>
          rw [List.cons_append] at heq
          injection heq with h1 h2
          subst h1
          obtain ⟨u, v, rfl, hu, hv⟩ := ih as' bs h2
          exact ⟨run ++ u, v, by rw [List.append_assoc],
            AtomsMatch.cnt p m ub as' run u hlen hall hu, hv⟩
  | optYes g as₁ u' h ih =>
      intro as bs heq
      cases as with
      | nil =>
          exact ⟨[], _, rfl, AtomsMatch.nil, by rw [← List.nil_append bs, ← heq]; exact AtomsMatch.optYes g as₁ u' h⟩
      | cons a as' =>
          rw [List.cons_append] at heq
          injection heq with h1 h2
          subst h1
          obtain ⟨u, v, rfl, hu, hv⟩ := ih (g ++ as') bs (by rw [h2, List.append_assoc])
          exact ⟨u, v, rfl, AtomsMatch.optYes g as' u hu, hv⟩
  | optNo g as₁ u' h ih =>
      intro as bs heq
      cases as with
      | nil =>
          exact ⟨[], _, rfl, AtomsMatch.nil, by rw [← List.nil_append bs, ← heq]; exact AtomsMatch.optNo g as₁ u' h⟩
      | cons a as' =>
          rw [List.cons_append] at heq
          injection heq with h1 h2
          subst h1
          obtain ⟨u, v, rfl, hu, hv⟩ := ih as' bs h2
          exact ⟨u, v, rfl, AtomsMatch.optNo g as' u hu, hv⟩

/-- What the greedy countdown finds is one of the attempted run lengths
with an accepting continuation. -/
theorem cntDown_some (next : Option Char → List Char → Option Nat)
    (last : Option Char) (s : List Char) :
    ∀ steps r n, cntDown next last s r steps = some n →
      ∃ r' m, r - steps ≤ r' ∧ r' ≤ r ∧
        next (lastOpt (s.take r') last) (s.drop r') = some m ∧ n = r' + m := by
  intro steps
  induction steps with
  | zero =>
      intro r n h
      rw [cntDown] at h
      cases hnext : next (lastOpt (s.take r) last) (s.drop r) with
      | some m =>
          rw [hnext] at h
          injection h with h
          exact ⟨r, m, by omega, Nat.le_refl r, hnext, h.symm⟩
      | none => rw [hnext] at h; cases h
  | succ st ih =>
      intro r n h
      rw [cntDown] at h
      cases hnext : next (lastOpt (s.take r) last) (s.drop r) with
      | some m =>
          rw [hnext] at h
          injection h with h
          exact ⟨r, m, by omega, Nat.le_refl r, hnext, h.symm⟩
      | none =>
          rw [hnext] at h
          obtain ⟨r', m, h1, h2, h3, h4⟩ := ih (r - 1) n h
          exact ⟨r', m, by omega, by omega, h3, h4⟩

/-- When the greedy countdown fails, every attempted run length fails. -/
theorem cntDown_noneAt (next : Option Char → List Char → Option Nat)
    (last : Option Char) (s : List Char) :
    ∀ steps r, cntDown next last s r steps = none →
      ∀ r', r - steps ≤ r' → r' ≤ r →
        next (lastOpt (s.take r') last) (s.drop r') = none := by
  intro steps
  induction steps with
  | zero =>
      intro r h r' h1 h2
      rw [cntDown] at h
      cases hnext : next (lastOpt (s.take r) last) (s.drop r) with
      | some m => rw [hnext] at h; cases h
      | none =>
          have : r' = r := by omega
          rw [this]
          exact hnext
  | succ st ih =>
      intro r h r' h1 h2
      rw [cntDown] at h
      cases hnext : next (lastOpt (s.take r) last) (s.drop r) with
      | some m => rw [hnext] at h; cases h
      | none =>
          rw [hnext] at h
          by_cases hr : r' = r
          · rw [hr]; exact hnext
          · exact ih (r - 1) h r' (by omega) (by omega)

/-- Soundness of the backtracking matcher: an answer decomposes the string
into a consumed part matched by the atoms and a rest accepted by the
continuation. -/
theorem matchAtomsK_sound :
    ∀ (atoms : List Atom) (last : Option Char) (s : List Char)
      (k : Option Char → List Char → Option Nat) (n : Nat),
      matchAtomsK atoms last s k = some n →
      ∃ u t m, s = u ++ t ∧ AtomsMatch atoms u ∧
        k (lastOpt u last) t = some m ∧ n = u.length + m
  | [], last, s, k, n => by
      intro h
      rw [matchAtomsK] at h
      exact ⟨[], s, n, rfl, AtomsMatch.nil, h, by simp [lastOpt]⟩
  | Atom.lit cs :: as, last, s, k, n => by
      intro h
      rw [matchAtomsK] at h
      split at h
      · rename_i hsw
        obtain ⟨t0, rfl⟩ := (listStartsWith_iff cs _).mp hsw
        rw [List.drop_left] at h
        cases hm : matchAtomsK as (lastOpt cs last) t0 k with
        | none => rw [hm] at h; cases h
        | some n' =>
            rw [hm] at h
            obtain ⟨u, t, m, rfl, hu, hk, hn⟩ :=
              matchAtomsK_sound as (lastOpt cs last) t0 k n' hm
            refine ⟨cs ++ u, t, m, by rw [List.append_assoc],
              AtomsMatch.lit cs as u hu, ?_, ?_⟩
            · rw [lastOpt_append]; exact hk
            · injection h with h
              rw [← h, hn]
              simp [List.length_append]
              omega
      · cases h
  | Atom.cnt p m true :: as, last, s, k, n => by
      intro h
      rw [matchAtomsK] at h
      split at h
      · rename_i hm
        obtain ⟨r', m', h1, h2, h3, h4⟩ :=
          cntDown_some _ last s (clsRun p s - m) (clsRun p s) n h
        obtain ⟨u, t, mm, hsplit, hu, hk, hn⟩ :=
          matchAtomsK_sound as (lastOpt (s.take r') last) (s.drop r') k m' h3
        have hr'len : r' ≤ s.length := Nat.le_trans h2 (clsRun_le_length p s)
        have hmr' : m ≤ r' := by
          have := Nat.sub_sub_self hm
          omega
        refine ⟨s.take r' ++ u, t, mm, ?_, ?_, ?_, ?_⟩
        · rw [List.append_assoc, ← hsplit, List.take_append_drop]
        · refine AtomsMatch.cnt p m true as (s.take r') u ?_ ?_ hu
          · simp only [if_true]
            rw [List.length_take]
            omega
          · exact clsRun_take p s r' h2
        · rw [lastOpt_append]; exact hk
        · rw [List.length_append, List.length_take]
          have : min r' s.length = r' := by omega
          omega
      · cases h
  | Atom.cnt p m false :: as, last, s, k, n => by
      intro h
      rw [matchAtomsK] at h
      split at h
      · rename_i hm
        cases hmm : matchAtomsK as (lastOpt (s.take m) last) (s.drop m) k with
        | none => rw [hmm] at h; cases h
        | some n' =>
            rw [hmm] at h
            obtain ⟨u, t, mm, hsplit, hu, hk, hn⟩ :=
              matchAtomsK_sound as (lastOpt (s.take m) last) (s.drop m) k n' hmm
            have hmlen : m ≤ s.length := Nat.le_trans hm (clsRun_le_length p s)
            refine ⟨s.take m ++ u, t, mm, ?_, ?_, ?_, ?_⟩
            · rw [List.append_assoc, ← hsplit, List.take_append_drop]
            · refine AtomsMatch.cnt p m false as (s.take m) u ?_ ?_ hu
              · rw [if_neg Bool.false_ne_true]
                rw [List.length_take]
                omega
              · exact clsRun_take p s m hm
            · rw [lastOpt_append]; exact hk
            · injection h with h
              have h' : m + n' = n := h
              rw [← h', hn, List.length_append, List.length_take]
              have : min m s.length = m := by omega
              omega
      · cases h
  | Atom.optG g :: as, last, s, k, n => by
      intro h
      rw [matchAtomsK] at h
      cases hg : matchAtomsK g last s
          (fun l' s' => matchAtomsK as l' s' k) with
      | some n' =>
          rw [hg] at h
          injection h with h
          subst h
          obtain ⟨u1, t1, m1, rfl, hu1, hk1, hn1⟩ :=
            matchAtomsK_sound g last _ _ n' hg
          obtain ⟨u2, t2, m2, hsplit2, hu2, hk2, hn2⟩ :=
            matchAtomsK_sound as (lastOpt u1 last) t1 k m1 hk1
          refine ⟨u1 ++ u2, t2, m2, ?_, ?_, ?_, ?_⟩
          · rw [hsplit2, List.append_assoc]
          · exact AtomsMatch.optYes g as _
              (AtomsMatch_append hu1 hu2)
          · rw [lastOpt_append]; exact hk2
          · rw [List.length_append]; omega
      | none =>
          rw [hg] at h
          obtain ⟨u, t, m, rfl, hu, hk, hn⟩ :=
            matchAtomsK_sound as last _ k n h
          exact ⟨u, t, m, rfl, AtomsMatch.optNo g as u hu, hk, hn⟩

/-- Completeness of the backtracking matcher: when it fails, no
decomposition into an atoms-consumed part and a continuation-accepted rest
exists. -/
theorem matchAtomsK_complete :
    ∀ (atoms : List Atom) (last : Option Char) (s : List Char)
      (k : Option Char → List Char → Option Nat),
      matchAtomsK atoms last s k = none →
      ∀ u t, s = u ++ t → AtomsMatch atoms u → k (lastOpt u last) t = none
  | [], last, s, k => by
      intro h u t hs hu
      cases hu
      rw [matchAtomsK] at h
      rw [List.nil_append] at hs
      subst hs
      exact h
  | Atom.lit cs :: as, last, s, k => by
      intro h u t hs hu
      cases hu with
      | lit _ _ t' ht' =>
          rw [matchAtomsK] at h
          have hsw : listStartsWith cs s = true :=
            (listStartsWith_iff cs s).mpr ⟨t' ++ t, by rw [hs, List.append_assoc]⟩
          rw [if_pos hsw] at h
          have hm : matchAtomsK as (lastOpt cs last) (s.drop cs.length) k
              = none := by
            cases hmm : matchAtomsK as (lastOpt cs last) (s.drop cs.length) k with
            | none => rfl
            | some n' => rw [hmm] at h; cases h
          have hdrop : s.drop cs.length = t' ++ t := by
            rw [hs, List.append_assoc, List.drop_left]
          rw [hdrop] at hm
          rw [lastOpt_append]
          exact matchAtomsK_complete as (lastOpt cs last) (t' ++ t) k hm t' t
            rfl ht'
  | Atom.cnt p m true :: as, last, s, k => by
      intro h u t hs hu
      cases hu with
      | cnt _ _ _ _ run t' hlen hall ht' =>
          simp only [if_true] at hlen
          rw [matchAtomsK] at h
          have hrun : run.length ≤ clsRun p s := by
            rw [hs, List.append_assoc]
            exact le_clsRun_of_run p run (t' ++ t) hall
          rw [if_pos (Nat.le_trans hlen hrun)] at h
          have := cntDown_noneAt _ last s (clsRun p s - m) (clsRun p s) h
            run.length (by omega) hrun
          simp only at this
          have htake : s.take run.length = run := by
            rw [hs, List.append_assoc, List.take_left]
          have hdrop : s.drop run.length = t' ++ t := by
            rw [hs, List.append_assoc, List.drop_left]
          rw [htake, hdrop] at this
          rw [lastOpt_append]
          exact matchAtomsK_complete as (lastOpt run last) (t' ++ t) k this t' t
            rfl ht'
  | Atom.cnt p m false :: as, last, s, k => by
      intro h u t hs hu
      cases hu with
      | cnt _ _ _ _ run t' hlen hall ht' =>
          rw [if_neg Bool.false_ne_true] at hlen
          rw [matchAtomsK] at h
          have hrun : run.length ≤ clsRun p s := by
            rw [hs, List.append_assoc]
            exact le_clsRun_of_run p run (t' ++ t) hall
          rw [if_pos (by omega)] at h
          have hm : matchAtomsK as (lastOpt (s.take m) last) (s.drop m) k
              = none := by
            cases hmm : matchAtomsK as (lastOpt (s.take m) last) (s.drop m) k with
            | none => rfl
            | some n' => rw [hmm] at h; cases h
          have htake : s.take m = run := by
            rw [hs, List.append_assoc, ← hlen, List.take_left]
          have hdrop : s.drop m = t' ++ t := by
            rw [hs, List.append_assoc, ← hlen, List.drop_left]
          rw [htake, hdrop] at hm
          rw [lastOpt_append]
          exact matchAtomsK_complete as (lastOpt run last) (t' ++ t) k hm t' t
            rfl ht'
  | Atom.optG g :: as, last, s, k => by
      intro h u t hs hu
      rw [matchAtomsK] at h
      cases hg : matchAtomsK g last s
          (fun l' s' => matchAtomsK as l' s' k) with
      | some n' => rw [hg] at h; cases h
      | none =>
          rw [hg] at h
          cases hu with
          | optYes _ _ _ hg' =>
              obtain ⟨u1, u2, rfl, hu1, hu2⟩ :=
                AtomsMatch_split hg' g as rfl
              have := matchAtomsK_complete g last s _ hg u1 (u2 ++ t)
                (by rw [hs, List.append_assoc]) hu1
              simp only at this
              have := matchAtomsK_complete as (lastOpt u1 last) (u2 ++ t) k
                this u2 t rfl hu2
              rw [lastOpt_append]
              exact this
          | optNo _ _ _ has =>
              exact matchAtomsK_complete as last s k h u t hs has

/-- With no fallback, `lastOpt` is `getLast?`. -/
theorem lastOpt_none_eq (u : List Char) : lastOpt u none = u.getLast? := by
  unfold lastOpt
  cases u.getLast? <;> rfl

/-- The engine's answer is a valid match. -/
theorem tryMatchP_sound (P : RegexPat) (lw : Bool) (s : List Char) (n : Nat)
    (hmin : ∀ u, AtomsMatch P.atoms u → 1 ≤ u.length)
    (h : tryMatchP P lw s = some n) : PMatches P lw s n := by
  unfold tryMatchP at h
  split at h
  · cases h
  · rename_i hbs
    obtain ⟨u, t, m, hsplit, hu, hk, hn⟩ :=
      matchAtomsK_sound P.atoms none _ _ n h
    have hk' : (if !P.bEnd || (wordO (lastOpt u none) != wordO (t.get? 0))
        then some 0 else none) = some m := hk
    have hend : (!P.bEnd || (wordO (lastOpt u none) != wordO (t.get? 0)))
        = true ∧ m = 0 := by
      split at hk'
      · refine ⟨by assumption, ?_⟩
        injection hk' with hh
        exact hh.symm
      · cases hk'
    have hupos := hmin u hu
    have hn' : n = u.length := by omega
    subst hn'
    subst hsplit
    refine ⟨by simp, ?_, ?_, ?_⟩
    · rw [List.take_left]; exact hu
    · intro hb heq
      apply hbs
      rw [hb]
      simp [heq]
    · intro hb
      have hthis := hend.1
      rw [hb] at hthis
      simp only [Bool.not_true, Bool.false_or, bne_iff_ne, ne_eq] at hthis
      have h1 : (u ++ t).get? u.length = t.get? 0 := by
        rw [List.get?_append_right (Nat.le_refl _)]
        simp
      have h2 : (u ++ t).get? (u.length - 1) = u.get? (u.length - 1) :=
        List.get?_append (by omega)
      have h3 : lastOpt u none = u.get? (u.length - 1) := by
        rw [lastOpt_none_eq, List.getLast?_eq_get?]
      rw [h1, h2, ← h3]
      exact hthis

/-- When the engine fails at a position, no valid match exists there. -/
theorem tryMatchP_complete (P : RegexPat) (lw : Bool) (s : List Char)
    (hmin : ∀ u, AtomsMatch P.atoms u → 1 ≤ u.length)
    (h : tryMatchP P lw s = none) (n : Nat) : ¬ PMatches P lw s n := by
  rintro ⟨hlen, hatoms, hbs, hbe⟩
  unfold tryMatchP at h
  split at h
  · rename_i hcond
    simp only [Bool.and_eq_true, beq_iff_eq, decide_eq_true_eq] at hcond
    exact hbs hcond.1 hcond.2
  · have hcompl := matchAtomsK_complete P.atoms none s _ h (s.take n)
      (s.drop n) (List.take_append_drop n s).symm hatoms
    have hne : 1 ≤ (s.take n).length := hmin _ hatoms
    have hn1 : 1 ≤ n := by
      rw [List.length_take] at hne
      omega
    have htest : (!P.bEnd ||
        (wordO (lastOpt (s.take n) none) != wordO ((s.drop n).get? 0)))
        = true := by
      cases hPbe : P.bEnd with
      | false => simp
      | true =>
          simp only [Bool.not_true, Bool.false_or, bne_iff_ne, ne_eq]
          have h1 : (s.drop n).get? 0 = s.get? n := by
            rw [List.get?_drop]
            rw [Nat.add_zero]
          have h2 : lastOpt (s.take n) none = s.get? (n - 1) := by
            rw [lastOpt_none_eq, List.getLast?_eq_get?, List.length_take]
            have hmin' : min n s.length = n := by omega
            rw [hmin']
            exact List.get?_take (by omega)
          rw [h1, h2]
          exact hbe hPbe
    have hsome : (if (!P.bEnd ||
        (wordO (lastOpt (s.take n) none) != wordO ((s.drop n).get? 0)))
        then some 0 else (none : Option Nat)) = none := hcompl
    rw [if_pos htest] at hsome
    cases hsome

/-- The engine never reports an empty match for a pattern whose atoms
always consume at least one character. -/
theorem tryMatchP_pos (P : RegexPat) (lw : Bool) (s : List Char) (n : Nat)
    (hmin : ∀ u, AtomsMatch P.atoms u → 1 ≤ u.length)
    (h : tryMatchP P lw s = some n) : 1 ≤ n := by
  obtain ⟨hlen, hatoms, _, _⟩ := tryMatchP_sound P lw s n hmin h
  have := hmin _ hatoms
  rw [List.length_take] at this
  omega

/-- Matches consume at least the pattern's minimal length. -/
theorem atomsMinLen_le {as : List Atom} {u : List Char}
    (h : AtomsMatch as u) : atomsMinLen as ≤ u.length := by
  induction h with
  | nil => simp [atomsMinLen]
  | lit cs as' t h ih =>
      simp only [atomsMinLen, List.map_cons, List.sum_cons, atomMinLen,
        List.length_append] at *
      omega
  | cnt p m ub as' run t hlen hall h ih =>
      simp only [atomsMinLen, List.map_cons, List.sum_cons, atomMinLen,
        List.length_append] at *
      have hm : m ≤ run.length := by
        cases ub with
        | true => rw [if_pos rfl] at hlen; exact hlen
        | false => rw [if_neg Bool.false_ne_true] at hlen; omega
      omega
  | optYes g as' u' h ih =>
      simp only [atomsMinLen, List.map_cons, List.sum_cons, atomMinLen,
        List.map_append, List.sum_append] at *
      omega
  | optNo g as' u' h ih =>
      simp only [atomsMinLen, List.map_cons, List.sum_cons, atomMinLen] at *
      omega

/-- `atomsCharsOK` distributes over concatenation. -/
theorem atomsCharsOK_append {good : Char → Bool} :
    ∀ {as bs : List Atom}, atomsCharsOK good as → atomsCharsOK good bs →
      atomsCharsOK good (as ++ bs) := by
  intro as
  induction as with
  | nil => intro bs _ h2; simpa using h2
  | cons a as' ih =>
      intro bs h1 h2
      rw [atomsCharsOK] at h1
      rw [List.cons_append, atomsCharsOK]
      exact ⟨h1.1, ih h1.2 h2⟩

/-- Characters consumed by a match all satisfy a class-wise bound. -/
theorem AtomsMatch_chars {good : Char → Bool} : ∀ {as : List Atom}
    {u : List Char}, AtomsMatch as u → atomsCharsOK good as →
    ∀ c ∈ u, good c = true := by
  intro as u h
  induction h with
  | nil => intro _ c hc; cases hc
  | lit cs as' t h ih =>
      intro hok c hc
      rw [atomsCharsOK] at hok
      rw [atomCharsOK] at hok
      rcases List.mem_append.mp hc with h1 | h2
      · exact hok.1 c h1
      · exact ih hok.2 c h2
  | cnt p m ub as' run t hlen hall h ih =>
      intro hok c hc
      rw [atomsCharsOK] at hok
      rw [atomCharsOK] at hok
      rcases List.mem_append.mp hc with h1 | h2
      · exact hok.1 c (hall c h1)
      · exact ih hok.2 c h2
  | optYes g as' u' h ih =>
      intro hok c hc
      rw [atomsCharsOK] at hok
      rw [atomCharsOK] at hok
      exact ih (atomsCharsOK_append hok.1 hok.2) c hc
  | optNo g as' u' h ih =>
      intro hok c hc
      rw [atomsCharsOK] at hok
      exact ih hok.2 c hc

/-- A contiguous sublist is no longer than the list. -/
theorem listContainsSub_length (pat l : List Char)
    (h : listContainsSub pat l = true) : pat.length ≤ l.length := by
  induction l with
  | nil =>
      rw [listContainsSub] at h
      cases pat with
      | nil => simp
      | cons p ps => rw [listStartsWith] at h; cases h
  | cons c rest ih =>
      rw [listContainsSub] at h
      rcases Bool.or_eq_true_iff.mp h with h1 | h2
      · obtain ⟨t, ht⟩ := (listStartsWith_iff pat (c :: rest)).mp h1
        rw [ht]
        simp
      · have := ih h2
        simp
        omega

/-- Members of a contiguous sublist are members of the list. -/
theorem listContainsSub_mem (pat l : List Char)
    (h : listContainsSub pat l = true) : ∀ c ∈ pat, c ∈ l := by
  induction l with
  | nil =>
      rw [listContainsSub] at h
      cases pat with
      | nil => simp
      | cons p ps => rw [listStartsWith] at h; cases h
  | cons d rest ih =>
      rw [listContainsSub] at h
      rcases Bool.or_eq_true_iff.mp h with h1 | h2
      · obtain ⟨t, ht⟩ := (listStartsWith_iff pat (d :: rest)).mp h1
        intro c hc
        rw [ht]
        exact List.mem_append.mpr (Or.inl hc)
      · intro c hc
        exact List.mem_cons_of_mem d (ih h2 c hc)

/-- A class that rejects both brackets only produces bracket-free
characters. -/
theorem class_nonBracket (p : Char → Bool) (h1 : p '[' = false)
    (h2 : p ']' = false) : ∀ c, p c = true → nonBracket c = true := by
  intro c hc
  unfold nonBracket
  by_cases e1 : c = '['
  · subst e1; rw [hc] at h1; cases h1
  · by_cases e2 : c = ']'
    · subst e2; rw [hc] at h2; cases h2
    · have b1 : (c == '[') = false := by simp [e1]
      have b2 : (c == ']') = false := by simp [e2]
      rw [b1, b2]
      rfl

/-- Patterns whose matches are at least 9 characters cannot match inside
the 8-character inner text of the replacement token. -/
theorem notRedacted_of_min9 {as : List Atom} (h9 : 9 ≤ atomsMinLen as) :
    ∀ u, AtomsMatch as u → listContainsSub u ("REDACTED".toList) = false := by
  intro u h
  cases hc : listContainsSub u ("REDACTED".toList) with
  | false => rfl
  | true =>
      have h1 := listContainsSub_length u _ hc
      have h2 := atomsMinLen_le h
      simp only [List.length_cons] at h1
      exact absurd h1 (by simp [String.toList]; omega)

/-- Builder for the side conditions of the eleven boundary-framed default
patterns. -/
theorem goodPat_of_bb (R : RegexPat) (hs : R.bStart = true)
    (he : R.bEnd = true) (hmin : 1 ≤ atomsMinLen R.atoms)
    (hchars : atomsCharsOK nonBracket R.atoms)
    (hred : ∀ u, AtomsMatch R.atoms u →
      listContainsSub u ("REDACTED".toList) = false) : GoodPat R := by
  refine ⟨fun u h => Nat.le_trans hmin (atomsMinLen_le h),
    fun u h => AtomsMatch_chars h hchars, hred, ?_, ?_⟩
  · intro h; rw [hs] at h; cases h
  · intro h; rw [he] at h; cases h

/-- `lastOpt` ignores the fallback on nonempty lists. -/
theorem lastOpt_ne_nil (b : List Char) (x : Option Char) (hb : b ≠ []) :
    lastOpt b x = b.getLast? := by
  unfold lastOpt
  cases h : b.getLast? with
  | some c => rfl
  | none => simp at h; exact absurd h hb

/-- The last element of an append with a nonempty right part. -/
theorem getLast?_append_ne_nil (a v : List Char) (hv : v ≠ []) :
    (a ++ v).getLast? = v.getLast? := by
  rw [← lastOpt_none_eq, lastOpt_append, lastOpt_ne_nil v _ hv]

/-- Side conditions for the OpenAI key pattern. -/
theorem good_patOpenAI : GoodPat patOpenAI := by
  refine goodPat_of_bb _ rfl rfl (by decide) ?_ (notRedacted_of_min9 (by decide))
  simp only [patOpenAI, atomsCharsOK, atomCharsOK]
  exact ⟨by decide, class_nonBracket isAlnum (by decide) (by decide), trivial⟩

/-- Side conditions for the Stripe live key pattern. -/
theorem good_patStripeLive : GoodPat patStripeLive := by
  refine goodPat_of_bb _ rfl rfl (by decide) ?_ (notRedacted_of_min9 (by decide))
  simp only [patStripeLive, atomsCharsOK, atomCharsOK]
  exact ⟨by decide, class_nonBracket isAlnum (by decide) (by decide), trivial⟩

/-- Side conditions for the Stripe test key pattern. -/
theorem good_patStripeTest : GoodPat patStripeTest := by
  refine goodPat_of_bb _ rfl rfl (by decide) ?_ (notRedacted_of_min9 (by decide))
  simp only [patStripeTest, atomsCharsOK, atomCharsOK]
  exact ⟨by decide, class_nonBracket isAlnum (by decide) (by decide), trivial⟩

/-- Side conditions for the 40-character token pattern. -/
theorem good_patGitHub40 : GoodPat patGitHub40 := by
  refine goodPat_of_bb _ rfl rfl (by decide) ?_ (notRedacted_of_min9 (by decide))
  simp only [patGitHub40, atomsCharsOK, atomCharsOK]
  exact ⟨class_nonBracket isTokenChar (by decide) (by decide), trivial⟩

/-- Side conditions for the GitHub personal access token pattern. -/
theorem good_patGhp : GoodPat patGhp := by
  refine goodPat_of_bb _ rfl rfl (by decide) ?_ (notRedacted_of_min9 (by decide))
  simp only [patGhp, atomsCharsOK, atomCharsOK]
  exact ⟨by decide, class_nonBracket isAlnum (by decide) (by decide), trivial⟩

/-- Side conditions for the GitHub OAuth token pattern. -/
theorem good_patGho : GoodPat patGho := by
  refine goodPat_of_bb _ rfl rfl (by decide) ?_ (notRedacted_of_min9 (by decide))
  simp only [patGho, atomsCharsOK, atomCharsOK]
  exact ⟨by decide, class_nonBracket isAlnum (by decide) (by decide), trivial⟩

/-- Side conditions for the AWS access key pattern. -/
theorem good_patAkia : GoodPat patAkia := by
  refine goodPat_of_bb _ rfl rfl (by decide) ?_ (notRedacted_of_min9 (by decide))
  simp only [patAkia, atomsCharsOK, atomCharsOK]
  exact ⟨by decide, class_nonBracket isUpperDigit (by decide) (by decide), trivial⟩

/-- Side conditions for the generic long token pattern. -/
theorem good_patGeneric32 : GoodPat patGeneric32 := by
  refine goodPat_of_bb _ rfl rfl (by decide) ?_ (notRedacted_of_min9 (by decide))
  simp only [patGeneric32, atomsCharsOK, atomCharsOK]
  exact ⟨class_nonBracket isTokenChar (by decide) (by decide), trivial⟩

/-- Side conditions for the SSN pattern. -/
theorem good_patSsn : GoodPat patSsn := by
  refine goodPat_of_bb _ rfl rfl (by decide) ?_ (notRedacted_of_min9 (by decide))
  simp only [patSsn, atomsCharsOK, atomCharsOK]
  exact ⟨class_nonBracket isDigitC (by decide) (by decide), by decide,
    class_nonBracket isDigitC (by decide) (by decide), by decide,
    class_nonBracket isDigitC (by decide) (by decide), trivial⟩

/-- Side conditions for the card number pattern. -/
theorem good_patCard : GoodPat patCard := by
  refine goodPat_of_bb _ rfl rfl (by decide) ?_ (notRedacted_of_min9 (by decide))
  simp only [patCard, atomsCharsOK, atomCharsOK]
  exact ⟨class_nonBracket isDigitC (by decide) (by decide), trivial⟩

/-- Every email match contains the `@` sign. -/
theorem email_at_mem : ∀ u, AtomsMatch patEmail.atoms u → '@' ∈ u := by
  intro u h
  cases h with
  | cnt _ _ _ _ run t hlen hall h2 =>
      cases h2 with
      | lit _ _ t2 h3 => simp [List.mem_append]

/-- Side conditions for the email pattern. -/
theorem good_patEmail : GoodPat patEmail := by
  refine goodPat_of_bb _ rfl rfl (by decide) ?_ ?_
  · simp only [patEmail, atomsCharsOK, atomCharsOK]
    exact ⟨class_nonBracket isLocalChar (by decide) (by decide), by decide,
      class_nonBracket isDomainChar (by decide) (by decide), by decide,
      class_nonBracket isTldChar (by decide) (by decide), trivial⟩
  · intro u h
    cases hc : listContainsSub u ("REDACTED".toList) with
    | false => rfl
    | true =>
        have := listContainsSub_mem u _ hc '@' (email_at_mem u h)
        exact absurd this (by decide)

/-- Side conditions for the private key header pattern (the one pattern
without word boundaries: its matches start and end with `'-'`). -/
theorem good_patPrivKey : GoodPat patPrivKey := by
  refine ⟨fun u h => Nat.le_trans (by decide) (atomsMinLen_le h),
    fun u h => AtomsMatch_chars h ?chars, notRedacted_of_min9 (by decide),
    ?startc, ?endc⟩
  case chars =>
    simp only [patPrivKey, atomsCharsOK, atomCharsOK]
    exact ⟨by decide, class_nonBracket isSpaceJs (by decide) (by decide),
      ⟨by decide, class_nonBracket isSpaceJs (by decide) (by decide), trivial⟩,
      by decide, class_nonBracket isSpaceJs (by decide) (by decide),
      by decide, trivial⟩
  case startc =>
    intro _ u c h hget
    cases h with
    | lit _ _ t h2 =>
        have hd : (("-----BEGIN".toList : List Char) ++ t).get? 0
            = some '-' := rfl
        rw [hd] at hget
        injection hget with hc
        rw [← hc]
        decide
  case endc =>
    intro _ u h
    obtain ⟨u₁, v, rfl, hu₁, hv⟩ := AtomsMatch_split h
      [Atom.lit "-----BEGIN".toList, Atom.cnt isSpaceJs 1 true,
       Atom.optG [Atom.lit "RSA".toList, Atom.cnt isSpaceJs 1 true],
       Atom.lit "PRIVATE".toList, Atom.cnt isSpaceJs 1 true]
      [Atom.lit "KEY-----".toList] rfl
    cases hv with
    | lit _ _ t h2 =>
        cases h2
        rw [List.append_nil, getLast?_append_ne_nil _ _ (by decide)]
        decide

/-- Matches of a good pattern are nonempty and fit in the string. -/
theorem PMatches_bounds {Q : RegexPat} (hQ : GoodPat Q) {lw : Bool}
    {v : List Char} {n : Nat} (h : PMatches Q lw v n) :
    1 ≤ n ∧ n ≤ v.length := by
  obtain ⟨h1, h2, _, _⟩ := h
  have := hQ.minOne _ h2
  rw [List.length_take] at this
  exact ⟨by omega, h1⟩

/-- No good pattern matches in the empty string. -/
theorem noMatchesIn_nil {Q : RegexPat} (hQ : GoodPat Q) (lw : Bool) :
    noMatchesIn Q lw [] := by
  intro i n hM
  obtain ⟨h1, h2⟩ := PMatches_bounds hQ hM
  simp at h2
  omega

/-- Shifting the position context across a cons cell. -/
theorem ctxW_cons (lw : Bool) (c : Char) (v : List Char) (j : Nat) :
    ctxW lw (c :: v) (j + 1) = ctxW (wordC c) v j := by
  unfold ctxW
  cases j with
  | zero => simp [wordO]
  | succ j' => simp

/-- A string with no matches has no matches in any of its tails. -/
theorem noMatchesIn_shift (Q : RegexPat) (lw : Bool) (v : List Char) (d : Nat)
    (h : noMatchesIn Q lw v) : noMatchesIn Q (ctxW lw v d) (v.drop d) := by
  intro i n hM
  apply h (d + i) n
  have hdrop : (v.drop d).drop i = v.drop (d + i) := by
    rw [List.drop_drop, Nat.add_comm]
  have hctx : ctxW (ctxW lw v d) (v.drop d) i = ctxW lw v (d + i) := by
    unfold ctxW
    cases i with
    | zero => simp
    | succ i' =>
        simp only [Nat.succ_ne_zero, if_false, Nat.add_succ, Nat.succ_sub_one]
        rw [List.get?_drop]
  rw [hctx, hdrop] at hM
  exact hM

/-- Two strings sharing a long enough prefix agree on their `take L`
slices. -/
theorem get?_take_agree {x y : List Char} {L : Nat}
    (h : x.take L = y.take L) {j : Nat} (hj : j < L) : x.get? j = y.get? j := by
  have hx : x.get? j = (x.take L).get? j := (List.get?_take hj).symm
  have hy : y.get? j = (y.take L).get? j := (List.get?_take hj).symm
  rw [hx, hy, h]

/-- Slices inside a shared prefix agree. -/
theorem take_drop_agree {x y : List Char} {L i n0 : Nat}
    (h : x.take L = y.take L) (hle : i + n0 ≤ L) :
    (x.drop i).take n0 = (y.drop i).take n0 := by
  have hx : (x.drop i).take n0 = (x.take (i + n0)).drop i := by
    rw [List.drop_take]
    congr 1
    omega
  have hy : (y.drop i).take n0 = (y.take (i + n0)).drop i := by
    rw [List.drop_take]
    congr 1
    omega
  have hxy : x.take (i + n0) = y.take (i + n0) := by
    have h1 : x.take (i + n0) = (x.take L).take (i + n0) := by
      rw [List.take_take, Nat.min_eq_left hle]
    have h2 : y.take (i + n0) = (y.take L).take (i + n0) := by
      rw [List.take_take, Nat.min_eq_left hle]
    rw [h1, h2, h]
  rw [hx, hy, hxy]

/-- Transport a match along take-agreement (right context only matters for
patterns with a trailing `\b`). -/
theorem PMatches_congr (Q : RegexPat) (lw : Bool) (s s' : List Char) (n : Nat)
    (hn : 1 ≤ n) (htake : s.take n = s'.take n) (hlen : n ≤ s'.length)
    (hctx : Q.bEnd = true → wordO (s.get? n) = wordO (s'.get? n)) :
    PMatches Q lw s n → PMatches Q lw s' n := by
  rintro ⟨h1, h2, h3, h4⟩
  refine ⟨hlen, htake ▸ h2, ?_, ?_⟩
  · intro hb
    rw [← get?_take_agree htake (by omega : 0 < n)]
    exact h3 hb
  · intro hb
    rw [← get?_take_agree htake (by omega : n - 1 < n), ← hctx hb]
    exact h4 hb

/-- A pattern without a leading `\b` matches irrespective of the left
context. -/
theorem PMatches_relax_start (Q : RegexPat) (hbs : Q.bStart = false)
    (lw lw' : Bool) (v : List Char) (n : Nat) (h : PMatches Q lw v n) :
    PMatches Q lw' v n := by
  obtain ⟨h1, h2, _, h4⟩ := h
  exact ⟨h1, h2, fun hb => absurd hb (by rw [hbs]; exact Bool.false_ne_true),
    h4⟩

/-- A slice of a list occurs in it as a contiguous sublist. -/
theorem listContainsSub_slice : ∀ (x : List Char) (j m : Nat),
    listContainsSub ((x.drop j).take m) x = true := by
  intro x
  induction x with
  | nil =>
      intro j m
      simp only [List.drop_nil, List.take_nil, listContainsSub, listStartsWith]
  | cons c rest ih =>
      intro j m
      cases j with
      | zero =>
          rw [List.drop_zero, listContainsSub]
          refine Bool.or_eq_true_iff.mpr (Or.inl ?_)
          exact (listStartsWith_iff _ _).mpr
            ⟨(c :: rest).drop m, (List.take_append_drop m (c :: rest)).symm⟩
      | succ j' =>
          rw [List.drop_succ_cons, listContainsSub]
          exact Bool.or_eq_true_iff.mpr (Or.inr (ih j' m))

/-- The structure of one global replace: a chunk of copied characters where
the engine finds nothing, then (if anything is left) a replaced match and
the recursively processed remainder. -/
theorem replaceScan_struct (P : RegexPat) (repl : List Char) :
    ∀ (s : List Char) (lw : Bool),
      chunkLen P lw s ≤ s.length ∧
      (replaceScan P repl lw s).take (chunkLen P lw s) =
        s.take (chunkLen P lw s) ∧
      (∀ i < chunkLen P lw s,
        tryMatchP P (ctxW lw s i) (s.drop i) = none ∨
        tryMatchP P (ctxW lw s i) (s.drop i) = some 0) ∧
      ((s.drop (chunkLen P lw s) = [] ∧ replaceScan P repl lw s = s) ∨
       (∃ n, tryMatchP P (ctxW lw s (chunkLen P lw s))
            (s.drop (chunkLen P lw s)) = some (n + 1) ∧
          replaceScan P repl lw s =
            s.take (chunkLen P lw s) ++ repl ++
            replaceScan P repl
              (wordO (s.get? (chunkLen P lw s + n)))
              (s.drop (chunkLen P lw s + (n + 1))))) := by
  intro s
  induction s with
  | nil =>
      intro lw
      have hc0 : chunkLen P lw [] = 0 := by rw [chunkLen]
      refine ⟨by simp [hc0], by simp [hc0], ?_,
        Or.inl ⟨List.drop_nil, by rw [replaceScan]⟩⟩
      intro i hi
      simp [chunkLen] at hi
  | cons c rest ih =>
      intro lw
      obtain ⟨ihb, iht, ihr, ihd⟩ := ih (wordC c)
      cases htm : tryMatchP P lw (c :: rest) with
      | some n =>
          cases n with
          | zero =>
              have hcl : chunkLen P lw (c :: rest)
                  = 1 + chunkLen P (wordC c) rest := by
                rw [chunkLen, htm]
              have hout : replaceScan P repl lw (c :: rest)
                  = c :: replaceScan P repl (wordC c) rest := by
                rw [replaceScan, htm]
              refine ⟨?_, ?_, ?_, ?_⟩
              · rw [hcl]; simp; omega
              · rw [hcl, hout, Nat.add_comm, List.take_succ_cons,
                  List.take_succ_cons, iht]
              · intro i hi
                rw [hcl] at hi
                cases i with
                | zero =>
                    right
                    unfold ctxW
                    simpa using htm
                | succ j =>
                    rw [ctxW_cons, List.drop_succ_cons]
                    exact ihr j (by omega)
              · rcases ihd with ⟨hnil, hid⟩ | ⟨n, htm', heq⟩
                · left
                  constructor
                  · rw [hcl, Nat.add_comm, List.drop_succ_cons]
                    exact hnil
                  · rw [hout, hid]
                · right
                  refine ⟨n, ?_, ?_⟩
                  · rw [hcl, Nat.add_comm, ctxW_cons, List.drop_succ_cons]
                    exact htm'
                  · rw [hout, heq, hcl]
                    rw [Nat.add_comm 1 (chunkLen P (wordC c) rest)]
                    rw [List.take_succ_cons]
                    have e1 : (c :: rest).get?
                        (chunkLen P (wordC c) rest + 1 + n)
                        = rest.get? (chunkLen P (wordC c) rest + n) := by
                      have : chunkLen P (wordC c) rest + 1 + n
                          = (chunkLen P (wordC c) rest + n) + 1 := by omega
                      rw [this, List.get?_cons_succ]
                    have e2 : (c :: rest).drop
                        (chunkLen P (wordC c) rest + 1 + (n + 1))
                        = rest.drop (chunkLen P (wordC c) rest + (n + 1)) := by
                      have : chunkLen P (wordC c) rest + 1 + (n + 1)
                          = (chunkLen P (wordC c) rest + (n + 1)) + 1 := by
                        omega
                      rw [this, List.drop_succ_cons]
                    rw [e1, e2]
                    simp
          | succ n' =>
              have hcl : chunkLen P lw (c :: rest) = 0 := by
                rw [chunkLen, htm]
              have hout : replaceScan P repl lw (c :: rest)
                  = repl ++ replaceScan P repl (wordO ((c :: rest).get? n'))
                      (List.drop (n' + 1) (c :: rest)) := by
                rw [replaceScan, htm]
              refine ⟨by simp [hcl], by simp [hcl], by simp [hcl], ?_⟩
              right
              refine ⟨n', ?_, ?_⟩
              · rw [hcl]
                unfold ctxW
                simpa using htm
              · rw [hout, hcl]
                simp
      | none =>
          have hcl : chunkLen P lw (c :: rest)
              = 1 + chunkLen P (wordC c) rest := by
            rw [chunkLen, htm]
          have hout : replaceScan P repl lw (c :: rest)
              = c :: replaceScan P repl (wordC c) rest := by
            rw [replaceScan, htm]
          refine ⟨?_, ?_, ?_, ?_⟩
          · rw [hcl]; simp; omega
          · rw [hcl, hout, Nat.add_comm, List.take_succ_cons,
              List.take_succ_cons, iht]
          · intro i hi
            rw [hcl] at hi
            cases i with
            | zero =>
                left
                unfold ctxW
                simpa using htm
            | succ j =>
                rw [ctxW_cons, List.drop_succ_cons]
                exact ihr j (by omega)
          · rcases ihd with ⟨hnil, hid⟩ | ⟨n, htm', heq⟩
            · left
              constructor
              · rw [hcl, Nat.add_comm, List.drop_succ_cons]
                exact hnil
              · rw [hout, hid]
            · right
              refine ⟨n, ?_, ?_⟩
              · rw [hcl, Nat.add_comm, ctxW_cons, List.drop_succ_cons]
                exact htm'
              · rw [hout, heq, hcl]
                rw [Nat.add_comm 1 (chunkLen P (wordC c) rest)]
                rw [List.take_succ_cons]
                have e1 : (c :: rest).get?
                    (chunkLen P (wordC c) rest + 1 + n)
                    = rest.get? (chunkLen P (wordC c) rest + n) := by
                  have : chunkLen P (wordC c) rest + 1 + n
                      = (chunkLen P (wordC c) rest + n) + 1 := by omega
                  rw [this, List.get?_cons_succ]
                have e2 : (c :: rest).drop
                    (chunkLen P (wordC c) rest + 1 + (n + 1))
                    = rest.drop (chunkLen P (wordC c) rest + (n + 1)) := by
                  have : chunkLen P (wordC c) rest + 1 + (n + 1)
                      = (chunkLen P (wordC c) rest + (n + 1)) + 1 := by omega
                  rw [this, List.drop_succ_cons]
                rw [e1, e2]
                simp

/-- The first character of a scan output is either the replacement's
opening bracket or the string's own first character. -/
theorem replaceScan_head (P : RegexPat) (lw : Bool) (s : List Char)
    (c' : Char)
    (h : (replaceScan P redactedTok lw s).get? 0 = some c') :
    c' = '[' ∨ s.get? 0 = some c' := by
  cases s with
  | nil => rw [replaceScan] at h; cases h
  | cons c rest =>
      rw [replaceScan] at h
      cases htm : tryMatchP P lw (c :: rest) with
      | some n =>
          cases n with
          | zero =>
              rw [htm] at h
              simp only [List.get?_cons_zero] at h
              exact Or.inr (by rw [List.get?_cons_zero]; exact h)
          | succ n' =>
              rw [htm] at h
              have : (redactedTok ++ replaceScan P redactedTok
                  (wordO ((c :: rest).get? n'))
                  (List.drop (n' + 1) (c :: rest))).get? 0 = some '[' := rfl
              rw [this] at h
              injection h with h
              exact Or.inl h.symm
      | none =>
          rw [htm] at h
          simp only [List.get?_cons_zero] at h
          exact Or.inr (by rw [List.get?_cons_zero]; exact h)

/-- Key junction theorem: one global replace with the redaction token
introduces no new matches. If `Q` (a good pattern) has no matches in the
input — unless `Q` is the very pattern being replaced — then `Q` has no
matches in the output either. -/
theorem scanClean (P Q : RegexPat) (hP : GoodPat P) (hQ : GoodPat Q) :
    ∀ (N : Nat) (s : List Char) (lw : Bool), s.length ≤ N →
      (Q ≠ P → noMatchesIn Q lw s) →
      noMatchesIn Q lw (replaceScan P redactedTok lw s) := by
  intro N
  induction N with
  | zero =>
      intro s lw hlen _
      have hs : s = [] := List.eq_nil_of_length_eq_zero (by omega)
      subst hs
      rw [replaceScan]
      exact noMatchesIn_nil hQ lw
  | succ N ih =>
      intro s lw hlen Hcross
      obtain ⟨hLb, hTake, hRej, hDisj⟩ := replaceScan_struct P redactedTok s lw
      set L := chunkLen P lw s with hL
      rcases hDisj with ⟨hnil, hid⟩ | ⟨n, htm, heq⟩
      · -- the scanner found nothing: the output is the input itself
        rw [hid]
        by_cases hQP : Q = P
        · subst hQP
          intro i n0 hM
          obtain ⟨hn1, hn2⟩ := PMatches_bounds hQ hM
          have hsl : s.length ≤ L := List.drop_eq_nil_iff_le.mp hnil
          have hi : i < L := by
            rw [List.length_drop] at hn2
            omega
          rcases hRej i hi with hnone | hzero
          · exact tryMatchP_complete Q _ _ hQ.minOne hnone n0 hM
          · have := tryMatchP_pos Q _ _ 0 hQ.minOne hzero
            omega
        · exact Hcross hQP
      · -- a match was replaced: out = take L ++ token ++ (recursive scan)
        rw [List.append_assoc] at heq
        have hmP := tryMatchP_sound P (ctxW lw s L) (s.drop L) (n + 1)
          hP.minOne htm
        have hmPc := hmP
        obtain ⟨hmP1, hmP2, hmP3, hmP4⟩ := hmPc
        set lw₂ := wordO (s.get? (L + n)) with hlw₂
        set s₂ := s.drop (L + (n + 1)) with hs₂
        set out₂ := replaceScan P redactedTok lw₂ s₂ with hout₂
        set a := s.take L with ha
        rw [heq] at hTake
        rw [heq]
        set out := a ++ (redactedTok ++ out₂) with hout
        have hTokLen : redactedTok.length = 10 := rfl
        have haLen : a.length = L := by
          rw [ha, List.length_take]
          omega
        have houtGetLow : ∀ j, j < L → out.get? j = s.get? j := by
          intro j hj
          have h1 : out.get? j = (out.take L).get? j :=
            (List.get?_take hj).symm
          rw [h1, hTake, ha, List.get?_take hj]
        have houtGet : ∀ j, out.get? (L + j) = (redactedTok ++ out₂).get? j := by
          intro j
          rw [hout, List.get?_append_right (by rw [haLen]; omega), haLen,
            show L + j - L = j by omega]
        have hs₂len : s₂.length ≤ N := by
          rw [hs₂, List.length_drop]
          omega
        have hcross₂ : Q ≠ P → noMatchesIn Q lw₂ s₂ := by
          intro hne
          have h2 := noMatchesIn_shift Q lw s (L + (n + 1)) (Hcross hne)
          have hctx : ctxW lw s (L + (n + 1)) = lw₂ := by
            unfold ctxW
            rw [if_neg (by omega), show L + (n + 1) - 1 = L + n by omega]
          rw [hctx] at h2
          rw [← hs₂] at h2
          exact h2
        have hih : noMatchesIn Q lw₂ out₂ := ih s₂ lw₂ hs₂len hcross₂
        intro i n0 hM
        obtain ⟨hn01, hn02⟩ := PMatches_bounds hQ hM
        have hMc := hM
        obtain ⟨hM1, hM2, hM3, hM4⟩ := hMc
        by_cases hc1 : i + n0 ≤ L
        · -- the Q-match would lie wholly in the copied chunk
          have htakeT : (out.drop i).take n0 = (s.drop i).take n0 := by
            have hts : out.take L = s.take L := by
              rw [hTake]
            exact take_drop_agree hts hc1
          have hctxEq : ctxW lw out i = ctxW lw s i := by
            unfold ctxW
            by_cases hi : i = 0
            · rw [if_pos hi, if_pos hi]
            · rw [if_neg hi, if_neg hi, houtGetLow (i - 1) (by omega)]
          have hctxR : Q.bEnd = true →
              wordO ((out.drop i).get? n0) = wordO ((s.drop i).get? n0) := by
            intro hbe
            rw [List.get?_drop, List.get?_drop]
            by_cases hiL : i + n0 < L
            · rw [houtGetLow (i + n0) hiL]
            · have hEq : i + n0 = L := by omega
              have h4 := hM4 hbe
              have e1 : (out.drop i).get? (n0 - 1) = s.get? (L - 1) := by
                rw [List.get?_drop, houtGetLow (i + (n0 - 1)) (by omega),
                  show i + (n0 - 1) = L - 1 by omega]
              have e2 : (out.drop i).get? n0 = some '[' := by
                rw [List.get?_drop, hEq]
                have h0 := houtGet 0
                rw [Nat.add_zero] at h0
                rw [h0]
                rfl
              rw [e1, e2] at h4
              have hW : wordO (s.get? (L - 1)) = true := by
                cases hb : wordO (s.get? (L - 1)) with
                | true => rfl
                | false => exact absurd (hb.trans (by decide)) h4
              have hsL : wordO (s.get? L) = false := by
                cases hPbs : P.bStart with
                | true =>
                    have h3 := hmP3 hPbs
                    have e3 : ctxW lw s L = true := by
                      unfold ctxW
                      rw [if_neg (by omega)]
                      exact hW
                    have e4 : (s.drop L).get? 0 = s.get? L := by
                      rw [List.get?_drop, Nat.add_zero]
                    rw [e3, e4] at h3
                    cases hb : wordO (s.get? L) with
                    | false => rfl
                    | true => exact absurd hb.symm h3
                | false =>
                    cases hg : s.get? L with
                    | none => rfl
                    | some c =>
                        have hu : ((s.drop L).take (n + 1)).get? 0
                            = some c := by
                          rw [List.get?_take (by omega), List.get?_drop,
                            Nat.add_zero, hg]
                        have hnw := hP.startNW hPbs _ c hmP2 hu
                        exact hnw
              rw [hEq]
              have e5 : out.get? L = some '[' := by
                have h0 := houtGet 0
                rw [Nat.add_zero] at h0
                rw [h0]
                rfl
              rw [e5, hsL]
              decide
          have hlenS : n0 ≤ (s.drop i).length := by
            rw [List.length_drop]
            omega
          have hM' : PMatches Q (ctxW lw s i) (s.drop i) n0 := by
            rw [← hctxEq]
            exact PMatches_congr Q _ _ _ n0 hn01 htakeT hlenS hctxR hM
          by_cases hQP : Q = P
          · subst hQP
            have hiL : i < L := by omega
            rcases hRej i hiL with hnone | hzero
            · exact tryMatchP_complete Q _ _ hQ.minOne hnone n0 hM'
            · have := tryMatchP_pos Q _ _ 0 hQ.minOne hzero
              omega
          · exact Hcross hQP i n0 hM'
        · by_cases hc2 : i ≤ L
          · -- the Q-match would cover the opening bracket of the token
            have hg1 : ((out.drop i).take n0).get? (L - i)
                = (out.drop i).get? (L - i) := List.get?_take (by omega)
            have hg2 : (out.drop i).get? (L - i) = out.get? L := by
              rw [List.get?_drop, show i + (L - i) = L by omega]
            have hg3 : out.get? L = some '[' := by
              have h0 := houtGet 0
              rw [Nat.add_zero] at h0
              rw [h0]
              rfl
            have hmem : '[' ∈ (out.drop i).take n0 :=
              List.get?_mem (by rw [hg1, hg2, hg3])
            have hnb := hQ.noBrk _ hM2 '[' hmem
            exact absurd hnb (by decide)
          · by_cases hc3 : i < L + 10
            · -- the Q-match would start inside the token
              obtain ⟨d, hd⟩ : ∃ d, i = L + d := ⟨i - L, by omega⟩
              have hd1 : 1 ≤ d := by omega
              have hd9 : d ≤ 9 := by omega
              have hdropOut : out.drop i = redactedTok.drop d ++ out₂ := by
                rw [hd, hout, List.drop_append_eq_append_drop,
                  List.drop_eq_nil_of_le (by rw [haLen]; omega),
                  List.nil_append, haLen, show L + d - L = d by omega,
                  List.drop_append_eq_append_drop, hTokLen,
                  show d - 10 = 0 by omega, List.drop_zero]
              have hTok : AtomsMatch Q.atoms ((out.drop i).take n0) := hM2
              rw [hdropOut] at hTok
              by_cases h10 : d + n0 ≤ 9
              · -- text would be a slice of the token's inner word
                have hTeq : (redactedTok.drop d ++ out₂).take n0
                    = (redactedTok.drop d).take n0 := by
                  rw [List.take_append_eq_append_take,
                    show n0 - (redactedTok.drop d).length = 0 by
                      rw [List.length_drop, hTokLen]; omega,
                    List.take_zero, List.append_nil]
                rw [hTeq] at hTok
                have hsub := hQ.notRedacted _ hTok
                have htrue : listContainsSub ((redactedTok.drop d).take n0)
                    ("REDACTED".toList) = true := by
                  have hub : n0 ≤ 8 := by omega
                  interval_cases d <;> interval_cases n0 <;>
                    first | decide | omega
                rw [hsub] at htrue
                cases htrue
              · -- text would cover the token's closing bracket
                have h9d : 9 - d < n0 := by omega
                have hg1 : ((redactedTok.drop d ++ out₂).take n0).get? (9 - d)
                    = (redactedTok.drop d ++ out₂).get? (9 - d) :=
                  List.get?_take h9d
                have hg2 : (redactedTok.drop d ++ out₂).get? (9 - d)
                    = (redactedTok.drop d).get? (9 - d) :=
                  List.get?_append
                    (by rw [List.length_drop, hTokLen]; omega)
                have hg3 : (redactedTok.drop d).get? (9 - d) = some ']' := by
                  rw [List.get?_drop, show d + (9 - d) = 9 by omega]
                  rfl
                have hmem : ']' ∈ (redactedTok.drop d ++ out₂).take n0 :=
                  List.get?_mem (by rw [hg1, hg2, hg3])
                have hnb := hQ.noBrk _ hTok ']' hmem
                exact absurd hnb (by decide)
            · -- the Q-match lies in the recursively processed remainder
              obtain ⟨j, hj⟩ : ∃ j, i = L + 10 + j := ⟨i - (L + 10), by omega⟩
              have hTokLe : redactedTok.length ≤ 10 + j := by
                rw [hTokLen]
                omega
              have hdropOut : out.drop i = out₂.drop j := by
                rw [hj, hout, List.drop_append_eq_append_drop,
                  List.drop_eq_nil_of_le (by rw [haLen]; omega),
                  List.nil_append, haLen,
                  show L + 10 + j - L = 10 + j by omega,
                  List.drop_append_eq_append_drop,
                  List.drop_eq_nil_of_le hTokLe, List.nil_append, hTokLen,
                  show 10 + j - 10 = j by omega]
              cases j with
              | zero =>
                  rw [List.drop_zero] at hdropOut
                  have hctxF : ctxW lw out i = false := by
                    unfold ctxW
                    rw [if_neg (by omega)]
                    have h9 : out.get? (i - 1) = some ']' := by
                      rw [hj, show L + 10 + 0 - 1 = L + 9 by omega,
                        houtGet 9]
                      rfl
                    rw [h9]
                    decide
                  rw [hdropOut, hctxF] at hM
                  rw [hdropOut, hctxF] at hM3
                  have hih0 : ¬ PMatches Q lw₂ out₂ n0 := by
                    have hh := hih 0 n0
                    rw [List.drop_zero] at hh
                    unfold ctxW at hh
                    rw [if_pos rfl] at hh
                    exact hh
                  cases hlwb : lw₂ with
                  | false =>
                      rw [hlwb] at hih0
                      exact hih0 hM
                  | true =>
                      cases hQbs : Q.bStart with
                      | false =>
                          exact hih0
                            (PMatches_relax_start Q hQbs false lw₂ out₂ n0 hM)
                      | true =>
                          have h3 := hM3 hQbs
                          have hw : wordO (out₂.get? 0) = true := by
                            cases hb : wordO (out₂.get? 0) with
                            | true => rfl
                            | false => exact absurd hb.symm h3
                          obtain ⟨c', hg⟩ : ∃ c', out₂.get? 0 = some c' := by
                            cases hg : out₂.get? 0 with
                            | none =>
                                rw [hg] at hw
                                exact absurd hw (by decide)
                            | some c => exact ⟨c, rfl⟩
                          have hwc : wordC c' = true := by
                            rw [hg] at hw
                            exact hw
                          rcases replaceScan_head P lw₂ s₂ c'
                              (by rw [← hout₂]; exact hg) with hbr | hs2
                          · rw [hbr] at hwc
                            exact absurd hwc (by decide)
                          · have hsc : s.get? (L + (n + 1)) = some c' := by
                              rw [hs₂, List.get?_drop, Nat.add_zero] at hs2
                              exact hs2
                            cases hPbe : P.bEnd with
                            | true =>
                                have h4 := hmP4 hPbe
                                have e1 : (s.drop L).get? (n + 1 - 1)
                                    = s.get? (L + n) := by
                                  rw [show n + 1 - 1 = n from rfl,
                                    List.get?_drop]
                                have e2 : (s.drop L).get? (n + 1)
                                    = s.get? (L + (n + 1)) := by
                                  rw [List.get?_drop]
                                rw [e1, e2, hsc] at h4
                                apply h4
                                rw [← hlw₂, hlwb]
                                exact hwc.symm
                            | false =>
                                have h5 := hP.endNW hPbe _ hmP2
                                have hulen : ((s.drop L).take (n + 1)).length
                                    = n + 1 := by
                                  rw [List.length_take]
                                  have := hmP1
                                  omega
                                have e3 : ((s.drop L).take (n + 1)).getLast?
                                    = ((s.drop L).take (n + 1)).get? n := by
                                  rw [List.getLast?_eq_get?, hulen,
                                    Nat.add_sub_cancel]
                                have e4 : ((s.drop L).take (n + 1)).get? n
                                    = s.get? (L + n) := by
                                  rw [List.get?_take (Nat.lt_succ_self n),
                                    List.get?_drop]
                                rw [e3, e4] at h5
                                rw [← hlw₂, hlwb] at h5
                                cases h5
              | succ j' =>
                  have hctx4 : ctxW lw out i = ctxW lw₂ out₂ (j' + 1) := by
                    unfold ctxW
                    rw [if_neg (by omega), if_neg (Nat.succ_ne_zero j'),
                      hj, show L + 10 + (j' + 1) - 1 = L + (10 + j') by omega,
                      houtGet (10 + j'),
                      List.get?_append_right (by rw [hTokLen]; omega),
                      hTokLen, show 10 + j' - 10 = j' by omega,
                      Nat.add_sub_cancel]
                  rw [hdropOut, hctx4] at hM
                  exact hih (j' + 1) n0 hM

/-- A scan with no matches leaves the string unchanged. -/
theorem replaceScan_id (P : RegexPat) (hP : GoodPat P) :
    ∀ (s : List Char) (lw : Bool), noMatchesIn P lw s →
      replaceScan P redactedTok lw s = s := by
  intro s
  induction s with
  | nil =>
      intro lw _
      rw [replaceScan]
  | cons c rest ih =>
      intro lw hno
      have hshift : noMatchesIn P (wordC c) rest := by
        intro i m hM
        apply hno (i + 1) m
        rw [ctxW_cons, List.drop_succ_cons]
        exact hM
      have hno0 : ∀ m, ¬ PMatches P lw (c :: rest) m := by
        intro m
        have hx := hno 0 m
        rw [List.drop_zero] at hx
        unfold ctxW at hx
        rw [if_pos rfl] at hx
        exact hx
      cases htm : tryMatchP P lw (c :: rest) with
      | some m =>
          cases m with
          | zero =>
              rw [replaceScan, htm]
              rw [ih (wordC c) hshift]
          | succ m' =>
              exact absurd
                (tryMatchP_sound P lw (c :: rest) (m' + 1) hP.minOne htm)
                (hno0 (m' + 1))
      | none =>
          rw [replaceScan, htm]
          rw [ih (wordC c) hshift]

/-- A list that starts with the sought sublist contains it. -/
theorem listContainsSub_of_startsWith (pat l : List Char)
    (h : listStartsWith pat l = true) : listContainsSub pat l = true := by
  cases l with
  | nil =>
      rw [listContainsSub]
      exact h
  | cons c rest =>
      rw [listContainsSub]
      exact Bool.or_eq_true_iff.mpr (Or.inl h)

/-- A contiguous sublist of `l2` is one of `l1 ++ l2`. -/
theorem listContainsSub_append_right (pat l1 l2 : List Char)
    (h : listContainsSub pat l2 = true) :
    listContainsSub pat (l1 ++ l2) = true := by
  induction l1 with
  | nil => simpa using h
  | cons c rest ih =>
      rw [List.cons_append, listContainsSub]
      exact Bool.or_eq_true_iff.mpr (Or.inr ih)

/-- A scan output is the input itself or contains the replacement token. -/
theorem replaceScan_token (P : RegexPat) (s : List Char) (lw : Bool) :
    replaceScan P redactedTok lw s = s ∨
    listContainsSub redactedTok (replaceScan P redactedTok lw s) = true := by
  obtain ⟨_, _, _, hDisj⟩ := replaceScan_struct P redactedTok s lw
  rcases hDisj with ⟨_, hid⟩ | ⟨n, _, heq⟩
  · exact Or.inl hid
  · right
    rw [heq, List.append_assoc]
    exact listContainsSub_append_right _ _ _
      (listContainsSub_of_startsWith _ _
        ((listStartsWith_iff _ _).mpr ⟨_, rfl⟩))

/-- A scan whose input has a match of its own pattern always inserts the
replacement token. -/
theorem stage_token (P : RegexPat) (hP : GoodPat P) (s : List Char)
    (h : HasPatternMatch P s) :
    listContainsSub redactedTok (replaceScan P redactedTok false s) = true := by
  obtain ⟨hLb, hTake, hRej, hDisj⟩ := replaceScan_struct P redactedTok s false
  rcases hDisj with ⟨hnil, hid⟩ | ⟨n, htm, heq⟩
  · exfalso
    obtain ⟨i, m, hM⟩ := h
    obtain ⟨hm1, hm2⟩ := PMatches_bounds hP hM
    have hsl : s.length ≤ chunkLen P false s := List.drop_eq_nil_iff_le.mp hnil
    have hi : i < chunkLen P false s := by
      rw [List.length_drop] at hm2
      omega
    rcases hRej i hi with hnone | hzero
    · exact tryMatchP_complete P _ _ hP.minOne hnone m hM
    · have := tryMatchP_pos P _ _ 0 hP.minOne hzero
      omega
  · rw [heq, List.append_assoc]
    exact listContainsSub_append_right _ _ _
      (listContainsSub_of_startsWith _ _
        ((listStartsWith_iff _ _).mpr ⟨_, rfl⟩))

/-- All twelve default patterns satisfy the junction side conditions. -/
theorem defaultPatterns_good : ∀ R ∈ defaultPatterns, GoodPat R := by
  intro R hR
  simp only [defaultPatterns, List.mem_cons, List.not_mem_nil, or_false]
    at hR
  rcases hR with rfl | rfl | rfl | rfl | rfl | rfl | rfl | rfl | rfl | rfl |
    rfl | rfl
  · exact good_patOpenAI
  · exact good_patStripeLive
  · exact good_patStripeTest
  · exact good_patGitHub40
  · exact good_patGhp
  · exact good_patGho
  · exact good_patAkia
  · exact good_patPrivKey
  · exact good_patGeneric32
  · exact good_patSsn
  · exact good_patCard
  · exact good_patEmail

/-- After folding a list of good stages, no pattern of the list matches
anywhere in the result (and patterns already absent stay absent). -/
theorem foldClean : ∀ (ps : List RegexPat) (s : List Char),
    (∀ R ∈ ps, GoodPat R) →
    ∀ Q, GoodPat Q → (Q ∈ ps ∨ noMatchesIn Q false s) →
    noMatchesIn Q false
      (ps.foldl (fun acc R => replaceScan R redactedTok false acc) s) := by
  intro ps
  induction ps with
  | nil =>
      intro s _ Q _ h
      rcases h with h | h
      · cases h
      · simpa using h
  | cons R ps' ih =>
      intro s hgood Q hQ h
      rw [List.foldl_cons]
      apply ih (replaceScan R redactedTok false s)
        (fun R' hR' => hgood R' (List.mem_cons_of_mem R hR')) Q hQ
      rcases h with hmem | hno
      · rcases List.mem_cons.mp hmem with heq | hmem'
        · right
          subst heq
          exact scanClean Q Q (hgood Q (List.mem_cons_self Q ps')) hQ
            s.length s false le_rfl (fun hne => absurd rfl hne)
        · left
          exact hmem'
      · right
        exact scanClean R Q (hgood R (List.mem_cons_self R ps')) hQ
          s.length s false le_rfl (fun _ => hno)

/-- A fold of stages over a string none of them matches is the identity. -/
theorem fold_id : ∀ (ps : List RegexPat) (t : List Char),
    (∀ R ∈ ps, GoodPat R) → (∀ R ∈ ps, noMatchesIn R false t) →
    ps.foldl (fun acc R => replaceScan R redactedTok false acc) t = t := by
  intro ps
  induction ps with
  | nil =>
      intro t _ _
      rfl
  | cons R ps' ih =>
      intro t hg hn
      rw [List.foldl_cons,
        replaceScan_id R (hg R (List.mem_cons_self R ps')) t false
          (hn R (List.mem_cons_self R ps'))]
      exact ih t (fun R' hR' => hg R' (List.mem_cons_of_mem R hR'))
        (fun R' hR' => hn R' (List.mem_cons_of_mem R hR'))

/-- Along the fold the replacement token, once due (a pattern of the list
matches) or already present, ends up in the result. -/
theorem fold_token : ∀ (ps : List RegexPat) (s : List Char),
    (∀ R ∈ ps, GoodPat R) →
    (listContainsSub redactedTok s = true ∨
      ∃ P ∈ ps, HasPatternMatch P s) →
    listContainsSub redactedTok
      (ps.foldl (fun acc R => replaceScan R redactedTok false acc) s)
      = true := by
  intro ps
  induction ps with
  | nil =>
      intro s _ h
      rcases h with h | ⟨P, hP, _⟩
      · simpa using h
      · cases hP
  | cons R ps' ih =>
      intro s hg h
      rw [List.foldl_cons]
      apply ih (replaceScan R redactedTok false s)
        (fun R' hR' => hg R' (List.mem_cons_of_mem R hR'))
      rcases h with htok | ⟨P, hPmem, hmatch⟩
      · left
        rcases replaceScan_token R s false with heqs | hcontains
        · rw [heqs]
          exact htok
        · exact hcontains
      · rcases List.mem_cons.mp hPmem with heqP | hmem'
        · left
          subst heqP
          exact stage_token P (hg P (List.mem_cons_self P ps')) s hmatch
        · rcases replaceScan_token R s false with heqs | hcontains
          · right
            refine ⟨P, hmem', ?_⟩
            rw [heqs]
            exact hmatch
          · left
            exact hcontains

/-- After the full default pipeline, none of the twelve patterns matches
anywhere in the result. -/
theorem redactChars_clean (Q : RegexPat) (hQ : Q ∈ defaultPatterns)
    (s : List Char) : noMatchesIn Q false (redactChars s) :=
  foldClean defaultPatterns s defaultPatterns_good Q
    (defaultPatterns_good Q hQ) (Or.inl hQ)

/-- The default pipeline is idempotent on character lists. -/
theorem redactChars_idem (s : List Char) :
    redactChars (redactChars s) = redactChars s :=
  fold_id defaultPatterns (redactChars s) defaultPatterns_good
    (fun R hR => redactChars_clean R hR s)

/-- A prefix of `l1` is a prefix of `l1 ++ l2`. -/
theorem listStartsWith_append (pat l1 l2 : List Char)
    (h : listStartsWith pat l1 = true) : listStartsWith pat (l1 ++ l2) = true := by
  induction pat generalizing l1 with
  | nil => rw [listStartsWith]
  | cons c cs ih =>
      cases l1 with
      | nil => rw [listStartsWith] at h; cases h
      | cons b bs =>
          rw [listStartsWith] at h
          rw [List.cons_append, listStartsWith]
          simp only [Bool.and_eq_true] at h ⊢
          exact ⟨h.1, ih bs h.2⟩

/-- A contiguous sublist of `l1` is one of `l1 ++ l2`. -/
theorem listContainsSub_append_left (pat l1 l2 : List Char)
    (h : listContainsSub pat l1 = true) :
    listContainsSub pat (l1 ++ l2) = true := by
  induction l1 with
  | nil =>
      rw [listContainsSub] at h
      cases pat with
      | nil =>
          cases l2 with
          | nil => rw [List.nil_append, listContainsSub]; exact h
          | cons c cs =>
              rw [List.nil_append, listContainsSub]
              rw [listStartsWith]
              simp
      | cons p ps => rw [listStartsWith] at h; cases h
  | cons c cs ih =>
      rw [listContainsSub] at h
      rw [List.cons_append, listContainsSub]
      simp only [Bool.or_eq_true] at h ⊢
      cases h with
      | inl h => exact Or.inl (listStartsWith_append pat (c :: cs) l2 h)
      | inr h => exact Or.inr (ih h)

/-- The timeout error's message always contains the substring
`'timed out'` that the catch block tests for. -/
theorem timedOutMessage_includes (ms : Nat) :
    jsIncludes (timedOutMessage ms) "timed out" = true := by
  unfold jsIncludes timedOutMessage
  have h1 : ("Operation timed out after " ++ toString ms ++ "ms").toList =
      "Operation timed out after ".toList ++ ((toString ms).toList ++ "ms".toList) := by
    simp [String.toList, String.data_append, List.append_assoc]
  rw [h1]
  exact listContainsSub_append_left _ _ _ (by decide)

/-- A sink whose `emit` never throws synchronously makes every
`audit?.emit` call record its event and continue. -/
theorem emitCall_noThrow (s : SinkModel)
    (hs : ∀ ev e, s.emit ev ≠ EmitOutcome.threw e) (ev : AuditEvent) :
    emitCall (some s) ev = ([ev], none) := by
  unfold emitCall
  cases hemit : s.emit ev with
  | ok => simp [hemit]
  | rejectedPromise => simp [hemit]
  | threw e => exact absurd hemit (hs ev e)

/-- Membership in the lowercased field set coincides with a case-insensitive
match against one of the configured field names. -/
theorem contains_lowered_iff (fields : List String) (key : String) :
    (fields.map jsToLowerCase).contains (jsToLowerCase key) = true ↔
      keyMatchesField fields key := by
  unfold keyMatchesField
  induction fields with
  | nil => simp
  | cons f fs ih =>
      simp only [List.map_cons, List.contains_cons, Bool.or_eq_true, beq_iff_eq]
      constructor
      · rintro (h | h)
        · exact ⟨f, by simp, h⟩
        · obtain ⟨g, hg, he⟩ := ih.mp h
          exact ⟨g, by simp [hg], he⟩
      · rintro ⟨g, hg, he⟩
        rcases List.mem_cons.mp hg with rfl | hg'
        · exact Or.inl he
        · exact Or.inr (ih.mpr ⟨g, hg', he⟩)

mutual

/-- The executable field redactor satisfies the spec relation. -/
theorem fieldRedact_meets_spec (fields : List String) (repl : String) :
    ∀ v : Value,
      FieldRedSpec fields repl v (fieldRedact (fields.map jsToLowerCase) repl v)
  | Value.str s => FieldRedSpec.scalarStr s
  | Value.num n => FieldRedSpec.scalarNum n
  | Value.bool b => FieldRedSpec.scalarBool b
  | Value.null => FieldRedSpec.scalarNull
  | Value.arr items =>
      FieldRedSpec.arrCase items _ (fieldRedactItems_meets_spec fields repl items)
  | Value.obj kvs =>
      FieldRedSpec.objCase kvs _ (fieldRedactEntries_meets_spec fields repl kvs)

/-- Element-wise spec conformance for sequences. -/
theorem fieldRedactItems_meets_spec (fields : List String) (repl : String) :
    ∀ items : List Value,
      FieldRedItemsSpec fields repl items
        (fieldRedactItems (fields.map jsToLowerCase) repl items)
  | [] => FieldRedItemsSpec.nil
  | v :: vs =>
      FieldRedItemsSpec.consCase v _ vs _ (fieldRedact_meets_spec fields repl v)
        (fieldRedactItems_meets_spec fields repl vs)

/-- Entry-wise spec conformance for mappings. -/
theorem fieldRedactEntries_meets_spec (fields : List String) (repl : String) :
    ∀ kvs : List (String × Value),
      FieldRedEntriesSpec fields repl kvs
        (fieldRedactEntries (fields.map jsToLowerCase) repl kvs)
  | [] => FieldRedEntriesSpec.nil
  | (k, v) :: rest => by
      rw [fieldRedactEntries]
      by_cases hmatch : keyMatchesField fields k
      · have hc : (fields.map jsToLowerCase).contains (jsToLowerCase k) = true :=
          (contains_lowered_iff fields k).mpr hmatch
        simp only [hc, if_true]
        exact FieldRedEntriesSpec.matchCase k v rest _ hmatch
          (fieldRedactEntries_meets_spec fields repl rest)
      · have hc : (fields.map jsToLowerCase).contains (jsToLowerCase k) = false := by
          cases hb : (fields.map jsToLowerCase).contains (jsToLowerCase k) with
          | true => exact absurd ((contains_lowered_iff fields k).mp hb) hmatch
          | false => rfl
        simp only [hc, Bool.false_eq_true, if_false]
        exact FieldRedEntriesSpec.recurseCase k v _ rest _ hmatch
          (fieldRedact_meets_spec fields repl v)
          (fieldRedactEntries_meets_spec fields repl rest)

end

/-- C9: for every configured field set and every nested value, the field
redactor replaces values at case-insensitively matching keys with the
replacement token without recursing into them, preserves and recurses into
non-matching entries, maps sequences element-wise, and returns every
non-mapping, non-sequence value unchanged. -/
theorem C9_field_redactor_meets_spec (fields : List String) (repl : String)
    (v : Value) :
    FieldRedSpec fields repl v (createFieldRedactor fields repl v) :=
  fieldRedact_meets_spec fields repl v

/-- C4: for every capability name in the simple policy's denylist — whatever
the allowlist, the risk tier, and the approval-tier configuration — `decide`
returns `Deny` with a non-empty reason; the denylist takes precedence over
allowlist membership and approval-required tiers. -/
theorem C4_denylist_always_denies (opts : SimplePolicyOptions)
    (toolName : String) (risk : Risk) (D : List String)
    (hD : opts.denylist = some D) (hmem : toolName ∈ D) :
    simpleDecide opts toolName risk =
      GuardDecision.deny ("Tool '" ++ toolName ++ "' is in denylist") ∧
    ("Tool '" ++ toolName ++ "' is in denylist") ≠ "" := by
  refine ⟨?_, ?_⟩
  · unfold simpleDecide
    rw [hD]
    simp [hmem]
  · intro h
    have hlen := congrArg String.length h
    simp [String.length_append] at hlen
    exact absurd hlen.1.1 (by decide)

/-- Witness for C4 at a concrete configuration. -/
theorem C4_denylist_always_denies_witness :
    simpleDecide ⟨some ["delete_resource"], some ["delete_resource"],
        [Risk.write, Risk.admin]⟩ "delete_resource" Risk.admin =
      GuardDecision.deny ("Tool '" ++ "delete_resource" ++ "' is in denylist") ∧
    ("Tool '" ++ "delete_resource" ++ "' is in denylist") ≠ "" :=
  C4_denylist_always_denies
    ⟨some ["delete_resource"], some ["delete_resource"], [Risk.write, Risk.admin]⟩
    "delete_resource" Risk.admin ["delete_resource"] rfl (by simp)

/-- C2: (1) a configured, non-empty allowlist that omits the capability name
(with the name also outside the denylist) forces `Deny`; (2) an absent
allowlist imposes no restriction — the decision falls through to the
approval-tier rule or `Allow`; (3) for every configured allowlist, a name
absent from it yields `Deny` even without any denylist hit. -/
theorem C2_allowlist_rule (opts : SimplePolicyOptions) (toolName : String)
    (risk : Risk) :
    (∀ A, opts.allowlist = some A → A ≠ [] → toolName ∉ A →
      (∀ D, opts.denylist = some D → toolName ∉ D) →
      simpleDecide opts toolName risk =
        GuardDecision.deny ("Tool '" ++ toolName ++ "' is not in allowlist")) ∧
    (opts.allowlist = none →
      (∀ D, opts.denylist = some D → toolName ∉ D) →
      simpleDecide opts toolName risk =
        (if risk ∈ opts.requireApprovalForRisk then
          GuardDecision.allowNeedsApproval
            (riskLabel risk ++ " operation requires approval")
         else GuardDecision.allow)) ∧
    (∀ A, opts.allowlist = some A → toolName ∉ A →
      (simpleDecide opts toolName risk).isDeny = true) := by
  refine ⟨?_, ?_, ?_⟩
  · intro A hA _ hAbsent hDeny
    unfold simpleDecide
    rw [hA]
    cases hDen : opts.denylist with
    | none => simp [hAbsent]
    | some D => simp [hDeny D hDen, hAbsent]
  · intro hA hDeny
    unfold simpleDecide
    rw [hA]
    cases hDen : opts.denylist with
    | none => simp
    | some D => simp [hDeny D hDen]
  · intro A hA hAbsent
    unfold simpleDecide
    rw [hA]
    cases hDen : opts.denylist with
    | none => simp [hAbsent, GuardDecision.isDeny]
    | some D =>
      by_cases hd : toolName ∈ D
      · simp [hd, GuardDecision.isDeny]
      · simp [hd, hAbsent, GuardDecision.isDeny]

/-- Witness for C2 at concrete configurations. -/
theorem C2_allowlist_rule_witness :
    (simpleDecide ⟨some ["search_docs"], none, [Risk.write, Risk.admin]⟩
        "send_email" Risk.write =
      GuardDecision.deny ("Tool '" ++ "send_email" ++ "' is not in allowlist")) ∧
    (simpleDecide ⟨none, none, [Risk.write, Risk.admin]⟩
        "send_email" Risk.write =
      (if Risk.write ∈ [Risk.write, Risk.admin] then
        GuardDecision.allowNeedsApproval
          (riskLabel Risk.write ++ " operation requires approval")
       else GuardDecision.allow)) := by
  refine ⟨?_, ?_⟩
  · exact (C2_allowlist_rule ⟨some ["search_docs"], none, [Risk.write, Risk.admin]⟩
      "send_email" Risk.write).1 ["search_docs"] rfl (by simp) (by simp)
      (by intro D hD; cases hD)
  · exact (C2_allowlist_rule ⟨none, none, [Risk.write, Risk.admin]⟩
      "send_email" Risk.write).2.1 rfl (by intro D hD; cases hD)

/-- The catch block never produces a success outcome when its tag does not. -/
theorem guardCatch_ne_success (sink : Option SinkModel) (toolName : String)
    (timeoutMs : Nat) (requestId : String) (ts : Nat) (e : JsError)
    (tag : JsError → CallOutcome)
    (htag : ∀ e' v, tag e' ≠ CallOutcome.success v) (v : Value) :
    (guardCatch sink toolName timeoutMs requestId ts e tag).2 ≠
      CallOutcome.success v := by
  unfold guardCatch
  split
  · cases hm : (emitCall sink (AuditEvent.timeoutEv toolName timeoutMs requestId ts)).2 with
    | some e2 => simp [hm]
    | none => simp [hm]; exact htag e v
  · simp; exact htag e v

/-- A successful race against the timer means the underlying execution
finished in time with that very value. -/
theorem withTimeout_ok (run : Nat × Except JsError Value) (ms : Nat) (v : Value)
    (h : withTimeout run ms = Except.ok v) :
    run.2 = Except.ok v ∧ run.1 ≤ ms := by
  unfold withTimeout at h
  split at h
  · cases h
  · exact ⟨h, Nat.le_of_not_lt (by assumption)⟩

/-- C5: whenever a guarded invocation succeeds, the value handed back to the
caller is exactly the value the underlying capability produced (and the
capability finished within the timeout) — for every configured redactor;
redaction never touches the returned result. -/
theorem C5_result_unredacted (policy : PolicyModel) (sink : Option SinkModel)
    (timeoutMs : Nat) (redactor : Option (Value → Value)) (toolName : String)
    (exec : ExecModel) (ctx : GuardContext) (now : Nat) (input : Value)
    (v : Value)
    (h : (guardedExecute policy sink timeoutMs redactor toolName exec ctx now
        input).outcome = CallOutcome.success v) :
    (exec input).2 = Except.ok v ∧ (exec input).1 ≤ timeoutMs := by
  simp only [guardedExecute] at h
  repeat' split at h
  all_goals
    first
      | (revert h; simp; done)
      | (exact absurd h
          (guardCatch_ne_success _ _ _ _ _ _ _ (fun e' v' => by simp) v))
      | (change CallOutcome.success _ = CallOutcome.success v at h
         cases h
         exact withTimeout_ok _ _ _ (by assumption))

/-- Witness for C5: a concrete successful run through a redactor that
rewrites everything still returns the capability's original value. -/
theorem C5_result_unredacted_witness :
    ((fun _ : Value => ((3 : Nat),
        (Except.ok (Value.str "secret") : Except JsError Value)))
        (Value.str "q")).2 = Except.ok (Value.str "secret") ∧
    ((fun _ : Value => ((3 : Nat),
        (Except.ok (Value.str "secret") : Except JsError Value)))
        (Value.str "q")).1 ≤ 10 :=
  C5_result_unredacted
    ⟨fun _ _ => Except.ok (Risk.read, none),
     fun _ _ _ _ _ => Except.ok GuardDecision.allow⟩
    (some ⟨fun _ => EmitOutcome.ok⟩) 10 (some (fun _ => Value.str "[REDACTED]"))
    "search_docs" (fun _ => (3, Except.ok (Value.str "secret")))
    ⟨"r", 0, 8, 0, none⟩ 0 (Value.str "q") (Value.str "secret") rfl

/-- C7: when the host tool declares no approval predicate, the wrapper
synthesizes one that runs `classify` then `decide` and reports `true`
exactly when the decision carries `needsApproval` or the classification or
decision itself throws (fail closed); a tool with its own `needsApproval`
keeps it unchanged. -/
theorem C7_needsApproval_synthesis (policy : PolicyModel) (ctx : GuardContext)
    (toolName : String) (t : ToolLike) :
    (t.needsApprovalF = none →
      wrapToolApproval policy ctx toolName t =
        ApprovalField.predVal (fun input =>
          Except.ok (synthNeedsApproval policy ctx toolName input)) ∧
      ∀ input : Value,
        synthNeedsApproval policy ctx toolName input = true ↔
          ((∃ e, policy.classify toolName input = Except.error e) ∨
           (∃ risk creason e,
              policy.classify toolName input = Except.ok (risk, creason) ∧
              policy.decide toolName input ctx risk creason = Except.error e) ∨
           (∃ risk creason d,
              policy.classify toolName input = Except.ok (risk, creason) ∧
              policy.decide toolName input ctx risk creason = Except.ok d ∧
              d.carriesNeedsApproval = true))) ∧
    (∀ na, t.needsApprovalF = some na →
      wrapToolApproval policy ctx toolName t = na) := by
  constructor
  · intro hnone
    constructor
    · unfold wrapToolApproval
      rw [hnone]
    · intro input
      unfold synthNeedsApproval
      cases hc : policy.classify toolName input with
      | error e => simp [hc]
      | ok p =>
        obtain ⟨risk, creason⟩ := p
        cases hd : policy.decide toolName input ctx risk creason with
        | error e =>
            simp only [hc, hd, Except.ok.injEq, Prod.mk.injEq]
            constructor
            · intro _
              exact Or.inr (Or.inl ⟨risk, creason, e, ⟨rfl, rfl⟩, hd⟩)
            · intro _; trivial
        | ok d =>
            simp only [hc, hd, Except.ok.injEq, Prod.mk.injEq]
            constructor
            · intro hcarry
              exact Or.inr (Or.inr ⟨risk, creason, d, ⟨rfl, rfl⟩, hd, hcarry⟩)
            · rintro ((⟨e, he⟩) | ⟨r', c', e', ⟨hr, hcr⟩, he⟩ |
                ⟨r', c', d', ⟨hr, hcr⟩, hd', hcarry⟩)
              · cases he
              · subst hr; subst hcr
                rw [hd] at he
                cases he
              · subst hr; subst hcr
                rw [hd] at hd'
                cases hd'
                exact hcarry
  · intro na hna
    unfold wrapToolApproval
    rw [hna]

/-- Witness for C7: a concrete policy that throws on `classify` makes the
synthesized predicate report that approval is needed. -/
theorem C7_needsApproval_synthesis_witness :
    (wrapToolApproval
        ⟨fun _ _ => Except.error ⟨"boom"⟩,
         fun _ _ _ _ _ => Except.ok GuardDecision.allow⟩
        ⟨"r", 0, 8, 0, none⟩ "t" ⟨none, none⟩ =
      ApprovalField.predVal (fun input =>
        Except.ok (synthNeedsApproval
          ⟨fun _ _ => Except.error ⟨"boom"⟩,
           fun _ _ _ _ _ => Except.ok GuardDecision.allow⟩
          ⟨"r", 0, 8, 0, none⟩ "t" input))) ∧
    (synthNeedsApproval
        ⟨fun _ _ => Except.error ⟨"boom"⟩,
         fun _ _ _ _ _ => Except.ok GuardDecision.allow⟩
        ⟨"r", 0, 8, 0, none⟩ "t" Value.null = true) := by
  have h := C7_needsApproval_synthesis
    ⟨fun _ _ => Except.error ⟨"boom"⟩,
     fun _ _ _ _ _ => Except.ok GuardDecision.allow⟩
    ⟨"r", 0, 8, 0, none⟩ "t" ⟨none, none⟩
  refine ⟨(h.1 rfl).1, ?_⟩
  exact ((h.1 rfl).2 Value.null).mpr (Or.inl ⟨⟨"boom"⟩, rfl⟩)

/-- With a sink that never throws synchronously, the catch block's outcome
is the same as with no sink at all. -/
theorem guardCatch_noThrow_outcome (s : SinkModel)
    (hs : ∀ ev e, s.emit ev ≠ EmitOutcome.threw e) (toolName : String)
    (timeoutMs : Nat) (requestId : String) (ts : Nat) (e : JsError)
    (tag : JsError → CallOutcome) :
    (guardCatch (some s) toolName timeoutMs requestId ts e tag).2 =
      (guardCatch none toolName timeoutMs requestId ts e tag).2 := by
  simp only [guardCatch, emitCall_noThrow s hs]
  split <;> rfl

/-- C1 counterexample: with a sink whose `emit` throws synchronously, a
guarded invocation that would otherwise succeed instead aborts with the
sink's error — the outcome is not independent of sink failures. -/
theorem C1_counterexample :
    (guardedExecute
        ⟨fun _ _ => Except.ok (Risk.read, none),
         fun _ _ _ _ _ => Except.ok GuardDecision.allow⟩
        (some ⟨fun _ => EmitOutcome.threw ⟨"disk full"⟩⟩) 15000 none
        "search_docs" (fun _ => (0, Except.ok (Value.str "ok")))
        ⟨"r", 0, 8, 0, none⟩ 0 (Value.str "q")).outcome =
      CallOutcome.sinkThrew ⟨"disk full"⟩ ∧
    (guardedExecute
        ⟨fun _ _ => Except.ok (Risk.read, none),
         fun _ _ _ _ _ => Except.ok GuardDecision.allow⟩
        (some ⟨fun _ => EmitOutcome.ok⟩) 15000 none
        "search_docs" (fun _ => (0, Except.ok (Value.str "ok")))
        ⟨"r", 0, 8, 0, none⟩ 0 (Value.str "q")).outcome =
      CallOutcome.success (Value.str "ok") :=
  ⟨rfl, rfl⟩

/-- C1 (amended): a sink failure delivered as a rejected promise (emit
returns, the pipeline never awaits it) does not abort the guarded
invocation: for every sink whose `emit` never throws synchronously, the
outcome and the updated context are exactly those of an un-audited run. A
synchronous throw from `emit`, however, propagates (see the counterexample). -/
theorem C1_sink_rejection_isolated (policy : PolicyModel) (s : SinkModel)
    (timeoutMs : Nat) (redactor : Option (Value → Value)) (toolName : String)
    (exec : ExecModel) (ctx : GuardContext) (now : Nat) (input : Value)
    (hs : ∀ ev e, s.emit ev ≠ EmitOutcome.threw e) :
    (guardedExecute policy (some s) timeoutMs redactor toolName exec ctx now
        input).outcome =
      (guardedExecute policy none timeoutMs redactor toolName exec ctx now
        input).outcome ∧
    (guardedExecute policy (some s) timeoutMs redactor toolName exec ctx now
        input).ctx =
      (guardedExecute policy none timeoutMs redactor toolName exec ctx now
        input).ctx := by
  simp only [guardedExecute, emitCall_noThrow s hs, emitCall,
    guardCatch_noThrow_outcome s hs]
  repeat' split
  all_goals simp_all [guardCatch_noThrow_outcome s hs]

/-- Witness for the amended C1 at a concrete configuration with a sink
that only ever rejects asynchronously. -/
theorem C1_sink_rejection_isolated_witness :
    (guardedExecute
        ⟨fun _ _ => Except.ok (Risk.read, none),
         fun _ _ _ _ _ => Except.ok GuardDecision.allow⟩
        (some ⟨fun _ => EmitOutcome.rejectedPromise⟩) 15000 none "search_docs"
        (fun _ => (0, Except.ok (Value.str "ok")))
        ⟨"r", 0, 8, 0, none⟩ 0 (Value.str "q")).outcome =
      (guardedExecute
        ⟨fun _ _ => Except.ok (Risk.read, none),
         fun _ _ _ _ _ => Except.ok GuardDecision.allow⟩
        none 15000 none "search_docs"
        (fun _ => (0, Except.ok (Value.str "ok")))
        ⟨"r", 0, 8, 0, none⟩ 0 (Value.str "q")).outcome ∧
    (guardedExecute
        ⟨fun _ _ => Except.ok (Risk.read, none),
         fun _ _ _ _ _ => Except.ok GuardDecision.allow⟩
        (some ⟨fun _ => EmitOutcome.rejectedPromise⟩) 15000 none "search_docs"
        (fun _ => (0, Except.ok (Value.str "ok")))
        ⟨"r", 0, 8, 0, none⟩ 0 (Value.str "q")).ctx =
      (guardedExecute
        ⟨fun _ _ => Except.ok (Risk.read, none),
         fun _ _ _ _ _ => Except.ok GuardDecision.allow⟩
        none 15000 none "search_docs"
        (fun _ => (0, Except.ok (Value.str "ok")))
        ⟨"r", 0, 8, 0, none⟩ 0 (Value.str "q")).ctx :=
  C1_sink_rejection_isolated
    ⟨fun _ _ => Except.ok (Risk.read, none),
     fun _ _ _ _ _ => Except.ok GuardDecision.allow⟩
    ⟨fun _ => EmitOutcome.rejectedPromise⟩ 15000 none "search_docs"
    (fun _ => (0, Except.ok (Value.str "ok")))
    ⟨"r", 0, 8, 0, none⟩ 0 (Value.str "q") (fun ev e h => by cases h)

/-- C10: with a (non-throwing) sink configured, every invocation attempt —
whatever the policy, budgets, redactor, or capability behaviour — emits
`tool_call_attempted` first (with the redacted input) and increments the
context's call counter by exactly one; rejected calls therefore still
consume one unit of budget and appear in the audit trail. -/
theorem C10_attempted_then_increment (policy : PolicyModel) (s : SinkModel)
    (timeoutMs : Nat) (redactor : Option (Value → Value)) (toolName : String)
    (exec : ExecModel) (ctx : GuardContext) (now : Nat) (input : Value)
    (hs : ∀ ev e, s.emit ev ≠ EmitOutcome.threw e) :
    (guardedExecute policy (some s) timeoutMs redactor toolName exec ctx now
        input).events.head? =
      some (AuditEvent.attempted toolName
        (match redactor with | some r => r input | none => input)
        ctx.requestId now) ∧
    (guardedExecute policy (some s) timeoutMs redactor toolName exec ctx now
        input).ctx.toolCalls = ctx.toolCalls + 1 := by
  simp only [guardedExecute, emitCall_noThrow s hs]
  repeat' split
  all_goals simp_all

/-- Witness for C10: a call rejected by the budget still records an
`attempted` event and ratchets the counter. -/
theorem C10_attempted_then_increment_witness :
    (guardedExecute
        ⟨fun _ _ => Except.ok (Risk.read, none),
         fun _ _ _ _ _ => Except.ok GuardDecision.allow⟩
        (some ⟨fun _ => EmitOutcome.ok⟩) 15000 none "search_docs"
        (fun _ => (0, Except.ok (Value.str "ok")))
        ⟨"r", 5, 5, 0, none⟩ 0 (Value.str "q")).events.head? =
      some (AuditEvent.attempted "search_docs"
        (match (none : Option (Value → Value)) with
         | some r => r (Value.str "q") | none => Value.str "q") "r" 0) ∧
    (guardedExecute
        ⟨fun _ _ => Except.ok (Risk.read, none),
         fun _ _ _ _ _ => Except.ok GuardDecision.allow⟩
        (some ⟨fun _ => EmitOutcome.ok⟩) 15000 none "search_docs"
        (fun _ => (0, Except.ok (Value.str "ok")))
        ⟨"r", 5, 5, 0, none⟩ 0 (Value.str "q")).ctx.toolCalls = 5 + 1 :=
  C10_attempted_then_increment
    ⟨fun _ _ => Except.ok (Risk.read, none),
     fun _ _ _ _ _ => Except.ok GuardDecision.allow⟩
    ⟨fun _ => EmitOutcome.ok⟩ 15000 none "search_docs"
    (fun _ => (0, Except.ok (Value.str "ok")))
    ⟨"r", 5, 5, 0, none⟩ 0 (Value.str "q") (fun ev e h => by cases h)

/-- C6: when the underlying capability takes longer than `timeoutMs` on a
call that reaches the execution step (budget fine, policy allows), the
wrapped execute fails with the distinguishable timeout error, a
`tool_call_timeout` event is emitted, the event sequence ends in
`tool_call_timeout`, and no `tool_call_executed` event is ever emitted for
that invocation. -/
theorem C6_timeout_ends_sequence (policy : PolicyModel) (s : SinkModel)
    (timeoutMs : Nat) (redactor : Option (Value → Value)) (toolName : String)
    (exec : ExecModel) (ctx : GuardContext) (now : Nat) (input : Value)
    (risk0 : Risk) (creason0 : Option String) (decision : GuardDecision)
    (hs : ∀ ev e, s.emit ev ≠ EmitOutcome.threw e)
    (hbudget : ctx.toolCalls + 1 ≤ ctx.maxToolCalls)
    (hmd : ctx.maxDurationMs = none)
    (hc : policy.classify toolName input = Except.ok (risk0, creason0))
    (hd : policy.decide toolName input { ctx with toolCalls := ctx.toolCalls + 1 }
        risk0 creason0 = Except.ok decision)
    (hnd : ∀ r, decision ≠ GuardDecision.deny r)
    (htime : (exec input).1 > timeoutMs) :
    (guardedExecute policy (some s) timeoutMs redactor toolName exec ctx now
        input).outcome = CallOutcome.execFailed ⟨timedOutMessage timeoutMs⟩ ∧
    jsIncludes (timedOutMessage timeoutMs) "timed out" = true ∧
    (guardedExecute policy (some s) timeoutMs redactor toolName exec ctx now
        input).events.getLast? =
      some (AuditEvent.timeoutEv toolName timeoutMs ctx.requestId
        (now + timeoutMs)) ∧
    ∀ ev ∈ (guardedExecute policy (some s) timeoutMs redactor toolName exec
        ctx now input).events, ev.kind ≠ EventKind.executed := by
  have hover : overTimeBudget { ctx with toolCalls := ctx.toolCalls + 1 } now
      = none := by
    unfold overTimeBudget
    simp [hmd]
  have hwt : withTimeout (exec input) timeoutMs =
      Except.error ⟨timedOutMessage timeoutMs⟩ := by
    unfold withTimeout
    rw [if_pos htime]
  have hmin : min (exec input).1 timeoutMs = timeoutMs :=
    Nat.min_eq_right (Nat.le_of_lt htime)
  have hcatch : guardCatch (some s) toolName timeoutMs ctx.requestId
      (now + timeoutMs) ⟨timedOutMessage timeoutMs⟩ CallOutcome.execFailed =
      ([AuditEvent.timeoutEv toolName timeoutMs ctx.requestId (now + timeoutMs)],
       CallOutcome.execFailed ⟨timedOutMessage timeoutMs⟩) := by
    unfold guardCatch
    rw [if_pos (timedOutMessage_includes timeoutMs)]
    rw [emitCall_noThrow s hs]
  have hnotover : ¬ ctx.toolCalls + 1 > ctx.maxToolCalls := by omega
  cases decision with
  | deny r => exact absurd rfl (hnd r)
  | allow =>
      simp only [guardedExecute, emitCall_noThrow s hs, hc, hd, hwt, hmin,
        hcatch, hover, if_neg hnotover]
      refine ⟨by trivial, timedOutMessage_includes timeoutMs, by simp, ?_⟩
      intro ev hev
      simp only [List.singleton_append, List.nil_append, List.mem_cons,
        List.mem_singleton, List.not_mem_nil, or_false] at hev
      rcases hev with rfl | rfl
      · simp [AuditEvent.kind]
      · simp [AuditEvent.kind]
  | allowNeedsApproval a =>
      simp only [guardedExecute, emitCall_noThrow s hs, hc, hd, hwt, hmin,
        hcatch, hover, if_neg hnotover]
      refine ⟨by trivial, timedOutMessage_includes timeoutMs, by simp, ?_⟩
      intro ev hev
      simp only [List.singleton_append, List.cons_append, List.nil_append,
        List.mem_cons, List.mem_singleton, List.not_mem_nil, or_false] at hev
      rcases hev with rfl | rfl | rfl
      · simp [AuditEvent.kind]
      · simp [AuditEvent.kind]
      · simp [AuditEvent.kind]

/-- Witness for C6: a capability that runs for 10 units against a 5-unit
timeout fails with the timeout error and the audit trail ends in
`tool_call_timeout` with no `tool_call_executed`. -/
theorem C6_timeout_ends_sequence_witness :
    (guardedExecute
        ⟨fun _ _ => Except.ok (Risk.read, none),
         fun _ _ _ _ _ => Except.ok GuardDecision.allow⟩
        (some ⟨fun _ => EmitOutcome.ok⟩) 5 none "slow"
        (fun _ => (10, Except.ok Value.null))
        ⟨"r", 0, 8, 0, none⟩ 0 Value.null).outcome =
      CallOutcome.execFailed ⟨timedOutMessage 5⟩ ∧
    jsIncludes (timedOutMessage 5) "timed out" = true ∧
    (guardedExecute
        ⟨fun _ _ => Except.ok (Risk.read, none),
         fun _ _ _ _ _ => Except.ok GuardDecision.allow⟩
        (some ⟨fun _ => EmitOutcome.ok⟩) 5 none "slow"
        (fun _ => (10, Except.ok Value.null))
        ⟨"r", 0, 8, 0, none⟩ 0 Value.null).events.getLast? =
      some (AuditEvent.timeoutEv "slow" 5
        (GuardContext.requestId ⟨"r", 0, 8, 0, none⟩) (0 + 5)) ∧
    ∀ ev ∈ (guardedExecute
        ⟨fun _ _ => Except.ok (Risk.read, none),
         fun _ _ _ _ _ => Except.ok GuardDecision.allow⟩
        (some ⟨fun _ => EmitOutcome.ok⟩) 5 none "slow"
        (fun _ => (10, Except.ok Value.null))
        ⟨"r", 0, 8, 0, none⟩ 0 Value.null).events,
      ev.kind ≠ EventKind.executed :=
  C6_timeout_ends_sequence
    ⟨fun _ _ => Except.ok (Risk.read, none),
     fun _ _ _ _ _ => Except.ok GuardDecision.allow⟩
    ⟨fun _ => EmitOutcome.ok⟩ 5 none "slow"
    (fun _ => (10, Except.ok Value.null))
    ⟨"r", 0, 8, 0, none⟩ 0 Value.null Risk.read none GuardDecision.allow
    (fun ev e h => by cases h) (by decide) rfl rfl rfl
    (fun r h => by cases h) (by decide)

/-- The call counter never decreases across a guarded invocation, whatever
happens (the increment is never rolled back). -/
theorem guardedExecute_mono (policy : PolicyModel) (sink : Option SinkModel)
    (timeoutMs : Nat) (redactor : Option (Value → Value)) (toolName : String)
    (exec : ExecModel) (ctx : GuardContext) (now : Nat) (input : Value) :
    ctx.toolCalls ≤
      (guardedExecute policy sink timeoutMs redactor toolName exec ctx now
        input).ctx.toolCalls := by
  simp only [guardedExecute]
  repeat' split
  all_goals simp

/-- A benign call under budget: the counter advances by one, the audit
trail records `attempted` then `executed`, and the capability's value is
returned. -/
theorem guardedExecute_benign (policy : PolicyModel) (s : SinkModel)
    (timeoutMs : Nat) (redactor : Option (Value → Value)) (toolName : String)
    (exec : ExecModel) (ctx : GuardContext) (now : Nat) (input : Value)
    (risk0 : Risk) (creason0 : Option String) (dur : Nat) (v : Value)
    (hs : ∀ ev e, s.emit ev ≠ EmitOutcome.threw e)
    (hbudget : ctx.toolCalls + 1 ≤ ctx.maxToolCalls)
    (hmd : ctx.maxDurationMs = none)
    (hc : policy.classify toolName input = Except.ok (risk0, creason0))
    (hd : ∀ c, policy.decide toolName input c risk0 creason0 =
        Except.ok GuardDecision.allow)
    (hexec : exec input = (dur, Except.ok v)) (hdur : dur ≤ timeoutMs) :
    guardedExecute policy (some s) timeoutMs redactor toolName exec ctx now
        input =
      ⟨{ ctx with toolCalls := ctx.toolCalls + 1 },
       [AuditEvent.attempted toolName
          (match redactor with | some r => r input | none => input)
          ctx.requestId now,
        AuditEvent.executed toolName dur ctx.requestId (now + dur)],
       CallOutcome.success v⟩ := by
  have hover : overTimeBudget { ctx with toolCalls := ctx.toolCalls + 1 } now
      = none := by
    unfold overTimeBudget
    simp [hmd]
  have hwt : withTimeout (dur, (Except.ok v : Except JsError Value)) timeoutMs
      = Except.ok v := by
    unfold withTimeout
    simp [Nat.not_lt.mpr hdur]
  simp only [guardedExecute, emitCall_noThrow s hs, hc, hd, hover, hexec, hwt,
    if_neg (show ¬ ctx.toolCalls + 1 > ctx.maxToolCalls by omega)]
  simp

/-- A call once the counter has reached the ceiling: the counter still
advances (deliberate ratchet), `attempted` and `budget_exceeded` are
emitted, and the call is rejected. -/
theorem guardedExecute_overBudget (policy : PolicyModel) (s : SinkModel)
    (timeoutMs : Nat) (redactor : Option (Value → Value)) (toolName : String)
    (exec : ExecModel) (ctx : GuardContext) (now : Nat) (input : Value)
    (hs : ∀ ev e, s.emit ev ≠ EmitOutcome.threw e)
    (hover : ctx.maxToolCalls ≤ ctx.toolCalls) :
    guardedExecute policy (some s) timeoutMs redactor toolName exec ctx now
        input =
      ⟨{ ctx with toolCalls := ctx.toolCalls + 1 },
       [AuditEvent.attempted toolName
          (match redactor with | some r => r input | none => input)
          ctx.requestId now,
        AuditEvent.budgetExceeded
          ("Tool budget exceeded (maxToolCalls=" ++
            toString ctx.maxToolCalls ++ ")") ctx.requestId now],
       CallOutcome.budgetRejected
         ⟨"Tool budget exceeded (maxToolCalls=" ++
            toString ctx.maxToolCalls ++ ")"⟩⟩ := by
  simp only [guardedExecute, emitCall_noThrow s hs,
    if_pos (show ctx.toolCalls + 1 > ctx.maxToolCalls by omega)]
  simp

/-- `runCalls` produces one result per requested call. -/
theorem runCalls_length (policy : PolicyModel) (sink : Option SinkModel)
    (timeoutMs : Nat) (redactor : Option (Value → Value)) (toolName : String)
    (exec : ExecModel) (now : Nat) (input : Value) (ctx : GuardContext)
    (n : Nat) :
    (runCalls policy sink timeoutMs redactor toolName exec now input ctx
      n).2.length = n := by
  induction n generalizing ctx with
  | zero => rfl
  | succ m ih =>
      rw [runCalls]
      simp [ih]

/-- The counter never decreases across a whole sequence of invocations. -/
theorem runCalls_mono (policy : PolicyModel) (sink : Option SinkModel)
    (timeoutMs : Nat) (redactor : Option (Value → Value)) (toolName : String)
    (exec : ExecModel) (now : Nat) (input : Value) (ctx : GuardContext)
    (n : Nat) :
    ctx.toolCalls ≤
      (runCalls policy sink timeoutMs redactor toolName exec now input ctx
        n).1.toolCalls := by
  induction n generalizing ctx with
  | zero => exact Nat.le_refl _
  | succ m ih =>
      rw [runCalls]
      exact Nat.le_trans
        (guardedExecute_mono policy sink timeoutMs redactor toolName exec ctx
          now input)
        (ih _)

/-- Splitting a sequence of `m + n` invocations at the `m`-th. -/
theorem runCalls_add (policy : PolicyModel) (sink : Option SinkModel)
    (timeoutMs : Nat) (redactor : Option (Value → Value)) (toolName : String)
    (exec : ExecModel) (now : Nat) (input : Value) (ctx : GuardContext)
    (m n : Nat) :
    runCalls policy sink timeoutMs redactor toolName exec now input ctx
        (m + n) =
      ((runCalls policy sink timeoutMs redactor toolName exec now input
          (runCalls policy sink timeoutMs redactor toolName exec now input ctx
            m).1 n).1,
       (runCalls policy sink timeoutMs redactor toolName exec now input ctx
          m).2 ++
        (runCalls policy sink timeoutMs redactor toolName exec now input
          (runCalls policy sink timeoutMs redactor toolName exec now input ctx
            m).1 n).2) := by
  induction m generalizing ctx with
  | zero => simp [runCalls]
  | succ k ih =>
      have hadd : Nat.succ k + n = Nat.succ (k + n) := by omega
      rw [hadd, runCalls, runCalls, ih]
      simp

/-- A benign run of `n` calls that stays within budget: every call
succeeds with the capability's value and the counter advances by `n`. -/
theorem runCalls_benign (policy : PolicyModel) (s : SinkModel)
    (timeoutMs : Nat) (redactor : Option (Value → Value)) (toolName : String)
    (exec : ExecModel) (now : Nat) (input : Value) (risk0 : Risk)
    (creason0 : Option String) (dur : Nat) (v : Value) (ctx : GuardContext)
    (n : Nat)
    (hs : ∀ ev e, s.emit ev ≠ EmitOutcome.threw e)
    (hn : ctx.toolCalls + n ≤ ctx.maxToolCalls)
    (hmd : ctx.maxDurationMs = none)
    (hc : policy.classify toolName input = Except.ok (risk0, creason0))
    (hd : ∀ c, policy.decide toolName input c risk0 creason0 =
        Except.ok GuardDecision.allow)
    (hexec : exec input = (dur, Except.ok v)) (hdur : dur ≤ timeoutMs) :
    (runCalls policy (some s) timeoutMs redactor toolName exec now input ctx
        n).1 = { ctx with toolCalls := ctx.toolCalls + n } ∧
    ∀ r ∈ (runCalls policy (some s) timeoutMs redactor toolName exec now input
        ctx n).2, r.outcome = CallOutcome.success v := by
  induction n generalizing ctx with
  | zero =>
      constructor
      · rfl
      · intro r hr
        cases hr
  | succ m ih =>
      rw [runCalls]
      have hfirst := guardedExecute_benign policy s timeoutMs redactor toolName
        exec ctx now input risk0 creason0 dur v hs (by omega) hmd hc hd hexec
        hdur
      rw [hfirst]
      have ihm := ih { ctx with toolCalls := ctx.toolCalls + 1 }
        (by simp; omega) (by simp [hmd])
      simp only at ihm
      refine ⟨?_, ?_⟩
      · simp only [ihm.1]
        simp
        omega
      · intro r hr
        simp only [List.mem_cons] at hr
        rcases hr with rfl | hr
        · rfl
        · exact ihm.2 r hr

/-- C3: with `maxToolCalls = N` and nothing else rejecting, the first `N`
sequential invocations succeed, the `(N+1)`-th is rejected with a
`budget_exceeded` event and a thrown budget error, the counter is left at
`N + 1` (the increment is not rolled back), and the counter is
monotonically non-decreasing across invocations. -/
theorem C3_call_budget_ratchet (policy : PolicyModel) (s : SinkModel)
    (timeoutMs : Nat) (redactor : Option (Value → Value)) (toolName : String)
    (exec : ExecModel) (now : Nat) (input : Value) (risk0 : Risk)
    (creason0 : Option String) (dur : Nat) (v : Value) (ctx0 : GuardContext)
    (N : Nat)
    (hs : ∀ ev e, s.emit ev ≠ EmitOutcome.threw e)
    (hstart : ctx0.toolCalls = 0) (hmax : ctx0.maxToolCalls = N)
    (hmd : ctx0.maxDurationMs = none)
    (hc : policy.classify toolName input = Except.ok (risk0, creason0))
    (hd : ∀ c, policy.decide toolName input c risk0 creason0 =
        Except.ok GuardDecision.allow)
    (hexec : exec input = (dur, Except.ok v)) (hdur : dur ≤ timeoutMs) :
    (∀ r ∈ (runCalls policy (some s) timeoutMs redactor toolName exec now
        input ctx0 (N + 1)).2.take N, r.outcome = CallOutcome.success v) ∧
    (∃ res, (runCalls policy (some s) timeoutMs redactor toolName exec now
        input ctx0 (N + 1)).2.getLast? = some res ∧
      res.outcome = CallOutcome.budgetRejected
        ⟨"Tool budget exceeded (maxToolCalls=" ++ toString N ++ ")"⟩ ∧
      AuditEvent.budgetExceeded
        ("Tool budget exceeded (maxToolCalls=" ++ toString N ++ ")")
        ctx0.requestId now ∈ res.events ∧
      res.ctx.toolCalls = N + 1) ∧
    (runCalls policy (some s) timeoutMs redactor toolName exec now input ctx0
        (N + 1)).1.toolCalls = N + 1 ∧
    (∀ j k : Nat, j ≤ k →
      (runCalls policy (some s) timeoutMs redactor toolName exec now input
        ctx0 j).1.toolCalls ≤
      (runCalls policy (some s) timeoutMs redactor toolName exec now input
        ctx0 k).1.toolCalls) := by
  have hben := runCalls_benign policy s timeoutMs redactor toolName exec now
    input risk0 creason0 dur v ctx0 N hs (by omega) hmd hc hd hexec hdur
  have hlen := runCalls_length policy (some s) timeoutMs redactor toolName
    exec now input ctx0 N
  have hsplit := runCalls_add policy (some s) timeoutMs redactor toolName exec
    now input ctx0 N 1
  have hctxN : (runCalls policy (some s) timeoutMs redactor toolName exec now
      input ctx0 N).1 = { ctx0 with toolCalls := N } := by
    rw [hben.1, hstart]
    simp
  have hlast := guardedExecute_overBudget policy s timeoutMs redactor toolName
    exec { ctx0 with toolCalls := N } now input hs (by simp [hmax])
  have hA : (guardedExecute policy (some s) timeoutMs redactor toolName exec
      { ctx0 with toolCalls := N } now input).ctx.toolCalls = N + 1 := by
    rw [hlast]
  have hB : (guardedExecute policy (some s) timeoutMs redactor toolName exec
      { ctx0 with toolCalls := N } now input).outcome =
      CallOutcome.budgetRejected
        ⟨"Tool budget exceeded (maxToolCalls=" ++ toString N ++ ")"⟩ := by
    rw [hlast]
    simp [hmax]
  have hC : AuditEvent.budgetExceeded
      ("Tool budget exceeded (maxToolCalls=" ++ toString N ++ ")")
      ctx0.requestId now ∈
      (guardedExecute policy (some s) timeoutMs redactor toolName exec
        { ctx0 with toolCalls := N } now input).events := by
    rw [hlast]
    simp [hmax]
  have hone2 : (runCalls policy (some s) timeoutMs redactor toolName exec now
      input { ctx0 with toolCalls := N } 1).2 =
      [guardedExecute policy (some s) timeoutMs redactor toolName exec
        { ctx0 with toolCalls := N } now input] := rfl
  have hone1 : (runCalls policy (some s) timeoutMs redactor toolName exec now
      input { ctx0 with toolCalls := N } 1).1 =
      (guardedExecute policy (some s) timeoutMs redactor toolName exec
        { ctx0 with toolCalls := N } now input).ctx := rfl
  refine ⟨?_, ?_, ?_, ?_⟩
  · intro r hr
    rw [hsplit] at hr
    simp only [hctxN] at hr
    rw [List.take_left' hlen] at hr
    exact hben.2 r hr
  · refine ⟨guardedExecute policy (some s) timeoutMs redactor toolName exec
      { ctx0 with toolCalls := N } now input, ?_, hB, hC, hA⟩
    rw [hsplit]
    simp only [hctxN, hone2]
    rw [List.getLast?_concat]
  · rw [hsplit]
    simp only [hctxN, hone1, hA]
  · intro j k hjk
    have hk : k = j + (k - j) := by omega
    rw [hk, runCalls_add]
    exact runCalls_mono policy (some s) timeoutMs redactor toolName exec now
      input _ (k - j)

/-- Witness for C3 with `maxToolCalls = 1`: one success, then a budget
rejection that leaves the counter at 2. -/
theorem C3_call_budget_ratchet_witness :
    (∀ r ∈ (runCalls
        ⟨fun _ _ => Except.ok (Risk.read, none),
         fun _ _ _ _ _ => Except.ok GuardDecision.allow⟩
        (some ⟨fun _ => EmitOutcome.ok⟩) 5 none "t"
        (fun _ => (2, Except.ok Value.null)) 0 Value.null
        ⟨"r", 0, 1, 0, none⟩ (1 + 1)).2.take 1,
      r.outcome = CallOutcome.success Value.null) ∧
    (∃ res, (runCalls
        ⟨fun _ _ => Except.ok (Risk.read, none),
         fun _ _ _ _ _ => Except.ok GuardDecision.allow⟩
        (some ⟨fun _ => EmitOutcome.ok⟩) 5 none "t"
        (fun _ => (2, Except.ok Value.null)) 0 Value.null
        ⟨"r", 0, 1, 0, none⟩ (1 + 1)).2.getLast? = some res ∧
      res.outcome = CallOutcome.budgetRejected
        ⟨"Tool budget exceeded (maxToolCalls=" ++ toString 1 ++ ")"⟩ ∧
      AuditEvent.budgetExceeded
        ("Tool budget exceeded (maxToolCalls=" ++ toString 1 ++ ")")
        (GuardContext.requestId ⟨"r", 0, 1, 0, none⟩) 0 ∈ res.events ∧
      res.ctx.toolCalls = 1 + 1) ∧
    (runCalls
        ⟨fun _ _ => Except.ok (Risk.read, none),
         fun _ _ _ _ _ => Except.ok GuardDecision.allow⟩
        (some ⟨fun _ => EmitOutcome.ok⟩) 5 none "t"
        (fun _ => (2, Except.ok Value.null)) 0 Value.null
        ⟨"r", 0, 1, 0, none⟩ (1 + 1)).1.toolCalls = 1 + 1 ∧
    (∀ j k : Nat, j ≤ k →
      (runCalls
        ⟨fun _ _ => Except.ok (Risk.read, none),
         fun _ _ _ _ _ => Except.ok GuardDecision.allow⟩
        (some ⟨fun _ => EmitOutcome.ok⟩) 5 none "t"
        (fun _ => (2, Except.ok Value.null)) 0 Value.null
        ⟨"r", 0, 1, 0, none⟩ j).1.toolCalls ≤
      (runCalls
        ⟨fun _ _ => Except.ok (Risk.read, none),
         fun _ _ _ _ _ => Except.ok GuardDecision.allow⟩
        (some ⟨fun _ => EmitOutcome.ok⟩) 5 none "t"
        (fun _ => (2, Except.ok Value.null)) 0 Value.null
        ⟨"r", 0, 1, 0, none⟩ k).1.toolCalls) :=
  C3_call_budget_ratchet
    ⟨fun _ _ => Except.ok (Risk.read, none),
     fun _ _ _ _ _ => Except.ok GuardDecision.allow⟩
    ⟨fun _ => EmitOutcome.ok⟩ 5 none "t"
    (fun _ => (2, Except.ok Value.null)) 0 Value.null Risk.read none 2
    Value.null ⟨"r", 0, 1, 0, none⟩ 1
    (fun ev e h => by cases h) rfl rfl rfl rfl (fun c => rfl) rfl (by decide)

/-- C8: applying the default redactor to a string containing a substring
matched by one of its secret/PII patterns yields a string in which that
pattern no longer matches anywhere and in which the literal replacement
token `'[REDACTED]'` is present; moreover the default redactor is
idempotent on strings — applying it a second time to its own output
returns that output unchanged. -/
theorem C8_redactor_roundtrip_idempotent (P : RegexPat)
    (hmem : P ∈ defaultPatterns) (s : String)
    (h : HasPatternMatch P s.data) :
    ¬ HasPatternMatch P (redactString s).data ∧
    listContainsSub redactedTok (redactString s).data = true ∧
    ∀ t : String, redactString (redactString t) = redactString t := by
  refine ⟨?_, ?_, ?_⟩
  · rintro ⟨i, n, hM⟩
    exact redactChars_clean P hmem s.data i n hM
  · exact fold_token defaultPatterns s.data defaultPatterns_good
      (Or.inr ⟨P, hmem, h⟩)
  · intro t
    show (⟨redactChars (redactChars t.data)⟩ : String) = ⟨redactChars t.data⟩
    rw [redactChars_idem]

/-- Witness for C8: a bare 16-digit card number is matched by the card
pattern, and redacting it yields a string with no card match, the token
present, and the pipeline idempotent. -/
theorem C8_redactor_roundtrip_idempotent_witness :
    patCard ∈ defaultPatterns ∧
    HasPatternMatch patCard ("1234567890123456".data) ∧
    (¬ HasPatternMatch patCard (redactString "1234567890123456").data ∧
     listContainsSub redactedTok (redactString "1234567890123456").data
       = true ∧
     ∀ t : String, redactString (redactString t) = redactString t) := by
  have hmem : patCard ∈ defaultPatterns := by
    rw [defaultPatterns]
    exact List.mem_cons_of_mem _ (List.mem_cons_of_mem _
      (List.mem_cons_of_mem _ (List.mem_cons_of_mem _
      (List.mem_cons_of_mem _ (List.mem_cons_of_mem _
      (List.mem_cons_of_mem _ (List.mem_cons_of_mem _
      (List.mem_cons_of_mem _ (List.mem_cons_of_mem _
      (List.mem_cons_self _ _))))))))))
  have hlen16 : ("1234567890123456".data).length = 16 := by decide
  have hall : ∀ c ∈ "1234567890123456".data, isDigitC c = true := by decide
  have hatoms : AtomsMatch patCard.atoms
      (("1234567890123456".data).take 16) := by
    have h1 : ("1234567890123456".data).take 16
        = "1234567890123456".data ++ [] := by decide
    rw [h1]
    exact AtomsMatch.cnt isDigitC 16 false [] ("1234567890123456".data) []
      (by rw [if_neg Bool.false_ne_true]; exact hlen16) hall AtomsMatch.nil
  have hmatch : HasPatternMatch patCard ("1234567890123456".data) :=
    ⟨0, 16, by decide, hatoms, fun _ => by decide, fun _ => by decide⟩
  exact ⟨hmem, hmatch,
    C8_redactor_roundtrip_idempotent patCard hmem "1234567890123456" hmatch⟩

end Guardrails
